import Mathlib

/-!
Verification of the integer VIF feature extractor
(src/libvmaf/src/feature/integer_vif.c).

The C code is shallowly embedded: machine integers become `ℕ`/`ℤ` with
explicit reductions modulo `2^w` at the points where the C types wrap or
casts occur; pixel planes become total functions `ℤ → ℤ → ℕ` (the C code
indexes row/column with `int`, and reads are reduced to the element width);
IEEE float/double arithmetic in the final reductions is modelled by exact
rational arithmetic (`ℚ`); `float` computations used only at init time to
build the log table are likewise modelled by exact rational arithmetic.
Fallible C code (shifts by a negative count, `__builtin_clz` on zero) is
modelled with `Option`.
-/

set_option maxRecDepth 40000
set_option maxHeartbeats 4000000000

namespace IntegerVif

/-- Reduction of a value to 8 bits (a C `uint8_t` read or cast). -/
def u8 (x : ℕ) : ℕ := x % 256

/-- Reduction of a value to 16 bits (a C `uint16_t` read or cast). -/
def u16 (x : ℕ) : ℕ := x % 65536

/-- Reduction of a value to 32 bits (a C `uint32_t` read or cast). -/
def u32 (x : ℕ) : ℕ := x % 4294967296

/-- Reduction of a value to 64 bits (a C `uint64_t` read or cast). -/
def u64 (x : ℕ) : ℕ := x % 18446744073709551616

/-- Reinterpretation of a 32-bit unsigned value as a signed `int32_t`. -/
def i32 (x : ℕ) : ℤ :=
  if x % 4294967296 < 2147483648 then (x % 4294967296 : ℤ)
  else (x % 4294967296 : ℤ) - 4294967296

/-- Cast of a signed integer to `uint32_t` (wraps modulo `2^32`). -/
def u32z (z : ℤ) : ℕ := (z % 4294967296).toNat

/-- Cast of a signed integer to `uint64_t` (wraps modulo `2^64`). -/
def u64z (z : ℤ) : ℕ := (z % 18446744073709551616).toNat

/-- Wrap of a signed integer into the `int32_t` range (models the effect of
`int32_t` overflow, which every targeted compiler implements as two's
complement wraparound). -/
def i32wrap (z : ℤ) : ℤ := (z + 2147483648) % 4294967296 - 2147483648

/-- Number of binary digits computed by repeated halving; `fuel` bounds the
recursion.  With `fuel = 64` this is the bit length of any value that fits
the machine words used by the C code, and `32 - bitlen v` (resp.
`64 - bitlen v`) is `__builtin_clz v` (resp. `__builtin_clzll v`) for
nonzero `v`. -/
def bitlenAux : ℕ → ℕ → ℕ
  | 0, _ => 0
  | fuel + 1, n => if n = 0 then 0 else bitlenAux fuel (n / 2) + 1

/-- Bit length of a machine integer (64 bits of fuel suffices for every
value handled by the C code). -/
def bitlen (n : ℕ) : ℕ := bitlenAux 64 n

/-!  The two "best 16 bits" normalizers of the C source.

`integer_get_best_16bits_opt_greater` is the variant used for inputs known
to be large (the C comment says "for input greater than 16 bit"): it
computes `k = 16 - __builtin_clz(temp)` and shifts right by `k`
unconditionally.  For `temp < 2^15` the shift count is negative, and for
`temp = 0` the `clz` argument is zero; both are undefined in C, so the
model returns `none` there. -/
def integer_get_best_16bits_opt_greater (temp : ℕ) : Option (ℕ × ℤ) :=
  let k : ℤ := (bitlen temp : ℤ) - 16
  if k < 0 then none
  else some (temp >>> k.toNat, -k)

/-- 64-bit "best 16 bits" normalizer (`integer_get_best_16bits_opt_64`).
`__builtin_clzll 0` is undefined in C, so the model returns `none` for
input `0`; every other input follows the three branches of the source. -/
def integer_get_best_16bits_opt_64 (temp : ℕ) : Option (ℕ × ℤ) :=
  if temp = 0 then none
  else
    let c : ℕ := 64 - bitlen temp
    if 48 < c then some (u16 (temp <<< (c - 48)), (c : ℤ) - 48)
    else if c < 47 then some (u16 (temp >>> (48 - c)), -((48 : ℤ) - c))
    else if temp >>> 16 ≠ 0 then some (u16 (temp >>> 1), -1)
    else some (u16 temp, 0)

/-!  The log table.

`log2f_approx` extracts the binary exponent and mantissa of its argument
and evaluates the polynomial `log2_poly_s` at `mantissa - 1` by Horner's
rule (`horner_s`).  The C code does this in 32-bit floats; `(float)i` is
exact for the table arguments `i < 2^24`, and the float rounding of the
Horner steps is abstracted to exact rational arithmetic.  `log_generate`
fills entries `32767..65535` with `round(log2f_approx(i) * 2048)`. -/

def log2_poly_s : List ℚ :=
  [-(12671635276421 : ℚ) / 10 ^ 15, (64841182402670 : ℚ) / 10 ^ 15,
   -(157048836463065 : ℚ) / 10 ^ 15, (257167726303123 : ℚ) / 10 ^ 15,
   -(353800560300520 : ℚ) / 10 ^ 15, (480131410397451 : ℚ) / 10 ^ 15,
   -(721314327952201 : ℚ) / 10 ^ 15, (1442694803896991 : ℚ) / 10 ^ 15, 0]

def horner_s (poly : List ℚ) (x : ℚ) : ℚ :=
  poly.foldl (fun v c => v * x + c) 0

def log2f_approx (i : ℕ) : ℚ :=
  let e := bitlen i - 1
  (e : ℚ) + horner_s log2_poly_s ((i : ℚ) / 2 ^ e - 1)

/-- The table built by `log_generate` at init: entries `32767..65535` hold
`round(log2f_approx i * 2048)`; all other entries are uninitialized in C
(the claims under verification show they are never read) and are modelled
as `0`. -/
def log_values (i : ℕ) : ℕ :=
  if 32767 ≤ i ∧ i ≤ 65535 then (round (log2f_approx i * 2048)).toNat else 0

/-- `b ^ e` by binary powering (`fuel` bounds the bits of `e`). -/
def binpow (fuel b e : ℕ) : ℕ :=
  Nat.rec (motive := fun _ => ℕ → ℕ → ℕ) (fun _ _ => 1)
    (fun _ ih b e =>
      if e = 0 then 1 else (if e % 2 = 1 then b else 1) * ih (b * b) (e / 2))
    fuel b e

/-- The divided difference of the table polynomial: `P(y) - P(x) =
(y - x) * Sdiff x y` for `P = horner_s log2_poly_s`.  Grouping the degrees
in consecutive pairs exposes the positivity of each pair on `[0, 1]^2`. -/
def Sdiff (x y : ℚ) : ℚ :=
  (1442694803896991 / 1000000000000000 - 721314327952201 / 1000000000000000 * (x + y))
  + (480131410397451 / 1000000000000000 * (x ^ 2 + x * y + y ^ 2)
     - 353800560300520 / 1000000000000000 * (x ^ 3 + x ^ 2 * y + x * y ^ 2 + y ^ 3))
  + (257167726303123 / 1000000000000000
       * (x ^ 4 + x ^ 3 * y + x ^ 2 * y ^ 2 + x * y ^ 3 + y ^ 4)
     - 157048836463065 / 1000000000000000
       * (x ^ 5 + x ^ 4 * y + x ^ 3 * y ^ 2 + x ^ 2 * y ^ 3 + x * y ^ 4 + y ^ 5))
  + (64841182402670 / 1000000000000000
       * (x ^ 6 + x ^ 5 * y + x ^ 4 * y ^ 2 + x ^ 3 * y ^ 3 + x ^ 2 * y ^ 4 + x * y ^ 5 + y ^ 6)
     - 12671635276421 / 1000000000000000
       * (x ^ 7 + x ^ 6 * y + x ^ 5 * y ^ 2 + x ^ 4 * y ^ 3 + x ^ 3 * y ^ 4 + x ^ 2 * y ^ 5
          + x * y ^ 6 + y ^ 7))

/-!  The separable filters.

Pixel planes are total functions `ℤ → ℤ → ℕ`; every read is reduced to the
element width of the C array being read (`u8`/`u16`/`u32`), and the C
stride arithmetic (flat index `row * px_stride + col`) is abstracted to
two-argument indexing. -/

/-- The single-sided mirror reflection used by every filter loop in the
source: `ii < 0 ? -ii : (ii >= n ? 2n - ii - 1 : ii)`. -/
def mirror (idx n : ℤ) : ℤ :=
  if idx < 0 then -idx else if n ≤ idx then 2 * n - idx - 1 else idx

/-- One tap-weighted sum `Σ_fi filt[fi] * g (mirror (center - fwidth/2 + fi) n)`,
the common shape of every vertical/horizontal pass in the source. -/
def convTaps (filt : List ℕ) (g : ℤ → ℕ) (center n : ℤ) : ℕ :=
  (List.range filt.length).foldl
    (fun acc fi => acc + filt.getD fi 0 * g (mirror (center - (filt.length / 2 : ℕ) + (fi : ℤ)) n)) 0

/-- The five per-pixel outputs of the combined statistic filter. -/
structure FiltOut where
  mu1 : ℕ
  mu2 : ℕ
  rs : ℕ
  ds : ℕ
  rds : ℕ
deriving DecidableEq, Repr

/-- `vif_filter1d_combined_16`: the 16-bit statistic filter.  The vertical
pass produces the row tile (`tmp_*`), the horizontal pass the five stored
outputs.  Mean accumulators are `uint32_t` (reduced by `u32`), quadratic
accumulators `uint64_t` (reduced by `u64`); the vertical tile stores means
as `uint16_t` casts and quadratics as `uint32_t` casts; the horizontal
pass stores the means raw and the quadratics as `(accum + 32768) >> 16`. -/
def vif_filter1d_combined_16 (filt : List ℕ) (refP disP : ℤ → ℤ → ℕ)
    (w h : ℕ) (scale B : ℕ) (i j : ℤ) : FiltOut :=
  let shift_HorizontalPass : ℕ := 16
  let add_bef_shift_round_HP : ℕ := 32768
  let add_bef_shift_round_VP : ℕ := if scale = 0 then 2 ^ (B - 1) else 32768
  let shift_VerticalPass : ℕ := if scale = 0 then B else 16
  let shift_VerticalPass_square : ℕ := if scale = 0 then (B - 8) * 2 else 16
  let add_bef_shift_round_VP_square : ℕ :=
    if scale = 0 then (if B = 8 then 0 else 2 ^ (shift_VerticalPass_square - 1)) else 32768
  let rRead : ℤ → ℤ → ℕ := fun ii jj => u16 (refP ii jj)
  let dRead : ℤ → ℤ → ℕ := fun ii jj => u16 (disP ii jj)
  let tmp_mu1 : ℤ → ℕ := fun jj =>
    u16 ((u32 (convTaps filt (fun ii => rRead ii jj) i h + add_bef_shift_round_VP)) >>> shift_VerticalPass)
  let tmp_mu2 : ℤ → ℕ := fun jj =>
    u16 ((u32 (convTaps filt (fun ii => dRead ii jj) i h + add_bef_shift_round_VP)) >>> shift_VerticalPass)
  let tmp_ref : ℤ → ℕ := fun jj =>
    u32 ((u64 (convTaps filt (fun ii => rRead ii jj * rRead ii jj) i h + add_bef_shift_round_VP_square)) >>> shift_VerticalPass_square)
  let tmp_dis : ℤ → ℕ := fun jj =>
    u32 ((u64 (convTaps filt (fun ii => dRead ii jj * dRead ii jj) i h + add_bef_shift_round_VP_square)) >>> shift_VerticalPass_square)
  let tmp_ref_dis : ℤ → ℕ := fun jj =>
    u32 ((u64 (convTaps filt (fun ii => rRead ii jj * dRead ii jj) i h + add_bef_shift_round_VP_square)) >>> shift_VerticalPass_square)
  { mu1 := u32 (convTaps filt tmp_mu1 j w)
    mu2 := u32 (convTaps filt tmp_mu2 j w)
    rs := u32 ((u64 (convTaps filt tmp_ref j w + add_bef_shift_round_HP)) >>> shift_HorizontalPass)
    ds := u32 ((u64 (convTaps filt tmp_dis j w + add_bef_shift_round_HP)) >>> shift_HorizontalPass)
    rds := u32 ((u64 (convTaps filt tmp_ref_dis j w + add_bef_shift_round_HP)) >>> shift_HorizontalPass) }

/-- `vif_filter1d_combined_8`: the 8-bit statistic filter, a near-duplicate
of the 16-bit one with `uint8_t` source reads and the scale-0 shift
schedule hardwired (`inp_size_bits = 8` gives quadratic shift 0 with
rounding 0). -/
def vif_filter1d_combined_8 (filt : List ℕ) (refP disP : ℤ → ℤ → ℕ)
    (w h : ℕ) (B : ℕ) (i j : ℤ) : FiltOut :=
  let add_bef_shift_round_VP : ℕ := 2 ^ (B - 1)
  let shift_VerticalPass : ℕ := B
  let shift_VerticalPass_square : ℕ := (B - 8) * 2
  let add_bef_shift_round_VP_square : ℕ := if B = 8 then 0 else 2 ^ (shift_VerticalPass_square - 1)
  let rRead : ℤ → ℤ → ℕ := fun ii jj => u8 (refP ii jj)
  let dRead : ℤ → ℤ → ℕ := fun ii jj => u8 (disP ii jj)
  let tmp_mu1 : ℤ → ℕ := fun jj =>
    u16 ((u32 (convTaps filt (fun ii => rRead ii jj) i h + add_bef_shift_round_VP)) >>> shift_VerticalPass)
  let tmp_mu2 : ℤ → ℕ := fun jj =>
    u16 ((u32 (convTaps filt (fun ii => dRead ii jj) i h + add_bef_shift_round_VP)) >>> shift_VerticalPass)
  let tmp_ref : ℤ → ℕ := fun jj =>
    u32 ((u64 (convTaps filt (fun ii => rRead ii jj * rRead ii jj) i h + add_bef_shift_round_VP_square)) >>> shift_VerticalPass_square)
  let tmp_dis : ℤ → ℕ := fun jj =>
    u32 ((u64 (convTaps filt (fun ii => dRead ii jj * dRead ii jj) i h + add_bef_shift_round_VP_square)) >>> shift_VerticalPass_square)
  let tmp_ref_dis : ℤ → ℕ := fun jj =>
    u32 ((u64 (convTaps filt (fun ii => rRead ii jj * dRead ii jj) i h + add_bef_shift_round_VP_square)) >>> shift_VerticalPass_square)
  { mu1 := u32 (convTaps filt tmp_mu1 j w)
    mu2 := u32 (convTaps filt tmp_mu2 j w)
    rs := u32 ((u64 (convTaps filt tmp_ref j w + 32768)) >>> 16)
    ds := u32 ((u64 (convTaps filt tmp_dis j w + 32768)) >>> 16)
    rds := u32 ((u64 (convTaps filt tmp_ref_dis j w + 32768)) >>> 16) }

/-- `vif_filter1d_rdCombine_16`: the 16-bit reduce (blur) filter producing
the two `uint16_t` mean planes.  Accumulators are `uint32_t`. -/
def vif_filter1d_rdCombine_16 (filt : List ℕ) (refP disP : ℤ → ℤ → ℕ)
    (w h : ℕ) (scale B : ℕ) (i j : ℤ) : ℕ × ℕ :=
  let add_bef_shift_round_VP : ℕ := if scale = 0 then 2 ^ (B - 1) else 32768
  let shift_VerticalPass : ℕ := if scale = 0 then B else 16
  let tmp_ref : ℤ → ℕ := fun jj =>
    u16 ((u32 (convTaps filt (fun ii => u16 (refP ii jj)) i h + add_bef_shift_round_VP)) >>> shift_VerticalPass)
  let tmp_dis : ℤ → ℕ := fun jj =>
    u16 ((u32 (convTaps filt (fun ii => u16 (disP ii jj)) i h + add_bef_shift_round_VP)) >>> shift_VerticalPass)
  (u16 ((u32 (convTaps filt tmp_ref j w + 32768)) >>> 16),
   u16 ((u32 (convTaps filt tmp_dis j w + 32768)) >>> 16))

/-- `vif_filter1d_rdCombine_8`: the 8-bit reduce filter (`uint8_t` reads,
scale-0 shift schedule hardwired). -/
def vif_filter1d_rdCombine_8 (filt : List ℕ) (refP disP : ℤ → ℤ → ℕ)
    (w h : ℕ) (B : ℕ) (i j : ℤ) : ℕ × ℕ :=
  let add_bef_shift_round_VP : ℕ := 2 ^ (B - 1)
  let shift_VerticalPass : ℕ := B
  let tmp_ref : ℤ → ℕ := fun jj =>
    u16 ((u32 (convTaps filt (fun ii => u8 (refP ii jj)) i h + add_bef_shift_round_VP)) >>> shift_VerticalPass)
  let tmp_dis : ℤ → ℕ := fun jj =>
    u16 ((u32 (convTaps filt (fun ii => u8 (disP ii jj)) i h + add_bef_shift_round_VP)) >>> shift_VerticalPass)
  (u16 ((u32 (convTaps filt tmp_ref j w + 32768)) >>> 16),
   u16 ((u32 (convTaps filt tmp_dis j w + 32768)) >>> 16))

/-- `vif_dec2`: keep every other sample in both directions. -/
def vif_dec2 (src : ℤ → ℤ → ℕ) : ℤ → ℤ → ℕ := fun i j => src (2 * i) (2 * j)

/-!  The per-scale statistic (`vif_statistic`). -/

def sigma_nsq : ℤ := 131072

/-- Accumulator state of `vif_statistic`.  All fields are `int64_t` in the
source; their magnitudes stay far below `2^63` for any plane that fits in
memory, so they are modelled as unbounded integers. -/
structure VifAccum where
  num_accum_x : ℤ := 0
  accum_x : ℤ := 0
  accum_x2 : ℤ := 0
  accum_num_log : ℤ := 0
  accum_den_log : ℤ := 0
  accum_num_non_log : ℤ := 0
  accum_den_non_log : ℤ := 0
deriving DecidableEq, Repr

/-- One pixel of the `vif_statistic` double loop.  The `.getD (0, 0)`
defaults are never exercised on the paths the source reaches: in the
high-variance branch the 32-bit normalizer input is at least `2^18`, and the
64-bit normalizer inputs are nonzero except in the `sigma2_sq = -sigma_nsq`
corner tracked explicitly by the claims. -/
def vif_statistic_pixel (logv : ℕ → ℕ)
    (mu1_val mu2_val xx_filt_val yy_filt_val xy_filt_val : ℕ) (a : VifAccum) : VifAccum :=
  let mu1_sq_val := (mu1_val * mu1_val + 2147483648) >>> 32
  let mu2_sq_val := (mu2_val * mu2_val + 2147483648) >>> 32
  let mu1_mu2_val := (mu1_val * mu2_val + 2147483648) >>> 32
  let sigma1_sq := i32 (xx_filt_val + 4294967296 - mu1_sq_val)
  let sigma2_sq := i32 (yy_filt_val + 4294967296 - mu2_sq_val)
  if sigma_nsq ≤ sigma1_sq then
    let sigma12 := i32 (xy_filt_val + 4294967296 - mu1_mu2_val)
    let log_den_stage1 : ℕ := u32z (sigma_nsq + sigma1_sq)
    let ng := (integer_get_best_16bits_opt_greater log_den_stage1).getD (0, 0)
    let log_den1 := ng.1
    let x := ng.2
    let a := { a with num_accum_x := a.num_accum_x + 1, accum_x := a.accum_x + x }
    let den_val : ℤ := logv log_den1
    if 0 ≤ sigma12 then
      let numer1 : ℤ := i32wrap (sigma2_sq + sigma_nsq)
      let sigma12_sq : ℤ := sigma12 * sigma12
      let numer1_tmp : ℤ := numer1 * sigma1_sq
      let nl := (integer_get_best_16bits_opt_64 (u64z numer1_tmp)).getD (0, 0)
      let numlog := nl.1
      let x1 := nl.2
      let denom : ℤ := numer1_tmp - sigma12_sq
      if 0 < denom then
        let dl := (integer_get_best_16bits_opt_64 (u64z denom)).getD (0, 0)
        let denlog := dl.1
        let x2 := dl.2
        let num_val : ℤ := (logv numlog : ℤ) - (logv denlog : ℤ)
        { a with accum_x2 := a.accum_x2 + (x2 - x1),
                 accum_num_log := a.accum_num_log + num_val,
                 accum_den_log := a.accum_den_log + den_val }
      else
        { a with accum_num_non_log := a.accum_num_non_log + sigma2_sq,
                 accum_den_non_log := a.accum_den_non_log + 1 }
    else
      { a with accum_num_log := a.accum_num_log + 0,
               accum_den_log := a.accum_den_log + den_val }
  else
    { a with accum_num_non_log := a.accum_num_non_log + sigma2_sq,
             accum_den_non_log := a.accum_den_non_log + 1 }

/-- The double loop of `vif_statistic` over the valid `h × w` area. -/
def vif_statistic_accum (logv : ℕ → ℕ) (mu1 mu2 xx yy xy : ℤ → ℤ → ℕ)
    (w h : ℕ) : VifAccum :=
  (List.range h).foldl
    (fun acc (i : ℕ) =>
      (List.range w).foldl
        (fun acc (j : ℕ) =>
          vif_statistic_pixel logv (u32 (mu1 i j)) (u32 (mu2 i j))
            (u32 (xx i j)) (u32 (yy i j)) (u32 (xy i j)) acc)
        acc)
    {}

/-- The final reduction of `vif_statistic` (lines 514-515 of the source,
double arithmetic modelled as exact rationals). -/
def vif_statistic_reduce (a : VifAccum) : ℚ × ℚ :=
  ((a.accum_num_log : ℚ) / 2048 + (a.accum_x2 : ℚ)
      + ((a.accum_den_non_log : ℚ) - ((a.accum_num_non_log : ℚ) / 16384) / 65025),
   (a.accum_den_log : ℚ) / 2048 - ((a.accum_x : ℚ) + (a.num_accum_x : ℚ) * 17)
      + (a.accum_den_non_log : ℚ))

/-- `vif_statistic`: accumulate over the valid area, then reduce to the
`(num, den)` pair. -/
def vif_statistic (logv : ℕ → ℕ) (mu1 mu2 xx yy xy : ℤ → ℤ → ℕ)
    (w h : ℕ) : ℚ × ℚ :=
  vif_statistic_reduce (vif_statistic_accum logv mu1 mu2 xx yy xy w h)

/-!  The orchestrator (`extract`). -/

def vif_filter1d_table : List (List ℕ) :=
  [[489, 935, 1640, 2640, 3896, 5274, 6547, 7455, 7784, 7455, 6547, 5274, 3896, 2640, 1640, 935, 489],
   [1244, 3663, 7925, 12590, 14692, 12590, 7925, 3663, 1244],
   [3571, 16004, 26386, 16004, 3571],
   [10904, 43728, 10904]]

/-- State carried between scales of the `extract` loop: the current ref/dis
planes, the current valid width/height, and the `(num, den)` pairs already
produced. -/
structure ScaleState where
  refP : ℤ → ℤ → ℕ
  disP : ℤ → ℤ → ℕ
  w : ℕ
  h : ℕ
  scores : List (ℚ × ℚ)

/-- One iteration of the scale loop of `extract`: at scales `> 0` run the
reduce filter (8-bit variant only when `bpc = 8` and `scale = 1`, with
`scale - 1` passed as its scale argument), decimate, and halve the
dimensions; then run the statistic filter (8-bit variant only when
`bpc = 8` and `scale = 0`) and the statistic. -/
def extract_scale_step (B : ℕ) (logv : ℕ → ℕ) (st : ScaleState) (scale : ℕ) : ScaleState :=
  let filt := vif_filter1d_table.getD scale []
  let st :=
    if scale = 0 then st
    else
      let rd : ℤ → ℤ → ℕ × ℕ :=
        if B = 8 ∧ scale = 1 then
          vif_filter1d_rdCombine_8 filt st.refP st.disP st.w st.h B
        else
          vif_filter1d_rdCombine_16 filt st.refP st.disP st.w st.h (scale - 1) B
      let refP := vif_dec2 (fun i j => (rd i j).1)
      let disP := vif_dec2 (fun i j => (rd i j).2)
      { st with refP := refP, disP := disP, w := st.w / 2, h := st.h / 2 }
  let fo : ℤ → ℤ → FiltOut :=
    if B = 8 ∧ scale = 0 then
      vif_filter1d_combined_8 filt st.refP st.disP st.w st.h B
    else
      vif_filter1d_combined_16 filt st.refP st.disP st.w st.h scale B
  let nd := vif_statistic logv (fun i j => (fo i j).mu1) (fun i j => (fo i j).mu2)
    (fun i j => (fo i j).rs) (fun i j => (fo i j).ds) (fun i j => (fo i j).rds) st.w st.h
  { st with scores := st.scores ++ [nd] }

/-- The four `(num_s, den_s)` pairs computed by one `extract` call. -/
def extract_scores (refP disP : ℤ → ℤ → ℕ) (w h B : ℕ) (logv : ℕ → ℕ) : List (ℚ × ℚ) :=
  ((List.range 4).foldl (extract_scale_step B logv)
    { refP := refP, disP := disP, w := w, h := h, scores := [] }).scores

/-- The four feature keys, with the single-quote characters (`\x27`) that
are part of each key string in the source. -/
def vif_feature_keys : List String :=
  ["\x27VMAF_feature_vif_scale0_integer_score\x27",
   "\x27VMAF_feature_vif_scale1_integer_score\x27",
   "\x27VMAF_feature_vif_scale2_integer_score\x27",
   "\x27VMAF_feature_vif_scale3_integer_score\x27"]

/-- The tail of `extract`: the four sink appends.  `sink key value index`
returns the append status; the four statuses are OR-ed into the returned
status, and the returned trace records every append attempted, in order. -/
def extract_emit (scores : List (ℚ × ℚ)) (index : ℕ)
    (sink : String → ℚ → ℕ → ℤ) : ℤ × List (String × ℚ × ℕ) :=
  let s0 := scores.getD 0 (0, 0)
  let s1 := scores.getD 1 (0, 0)
  let s2 := scores.getD 2 (0, 0)
  let s3 := scores.getD 3 (0, 0)
  let e0 := sink (vif_feature_keys.getD 0 "") (s0.1 / s0.2) index
  let e1 := sink (vif_feature_keys.getD 1 "") (s1.1 / s1.2) index
  let e2 := sink (vif_feature_keys.getD 2 "") (s2.1 / s2.2) index
  let e3 := sink (vif_feature_keys.getD 3 "") (s3.1 / s3.2) index
  (Int.lor (Int.lor (Int.lor (Int.lor 0 e0) e1) e2) e3,
   [(vif_feature_keys.getD 0 "", s0.1 / s0.2, index),
    (vif_feature_keys.getD 1 "", s1.1 / s1.2, index),
    (vif_feature_keys.getD 2 "", s2.1 / s2.2, index),
    (vif_feature_keys.getD 3 "", s3.1 / s3.2, index)])

/-- `extract`: run the four scales, then emit the four scores. -/
def extract (refP disP : ℤ → ℤ → ℕ) (w h B : ℕ) (logv : ℕ → ℕ) (index : ℕ)
    (sink : String → ℚ → ℕ → ℤ) : ℤ × List (String × ℚ × ℕ) :=
  extract_emit (extract_scores refP disP w h B logv) index sink

/-!  Spec-side definitions.

These follow the WORDING of the specification (spec.md §4.2 and §4.3), to
be compared with the definitions above, which follow the source. -/

/-- Spec §4.3, the per-pixel branch rules, transcribed from the spec text:
`round64(x) >> 32` for the mean squares, the `sigma_nsq` comparison, the
low-variance accumulation `(sigma2_sq, 1)`, and the high-variance steps
1-4 with `norm32` (`k = 16 - clz32 v`, mantissa `v >> k`, exponent `-k`)
and `norm64` exactly as displayed there. -/
def spec_round64_shift32 (x : ℕ) : ℕ := (x + 2147483648) >>> 32

def spec_norm32 (v : ℕ) : ℕ × ℤ :=
  let k : ℤ := 16 - (32 - (bitlen v : ℤ))
  (v >>> k.toNat, -k)

def spec_norm64 (v : ℕ) : ℕ × ℤ :=
  let c : ℤ := 64 - (bitlen v : ℤ)
  if 48 < c then (u16 (v <<< (c - 48).toNat), c - 48)
  else if c < 47 then (u16 (v >>> (48 - c).toNat), -(48 - c))
  else if v >>> 16 ≠ 0 then (u16 (v >>> 1), -1)
  else (u16 v, 0)

/-- Spec §4.3 accumulators, named as in the spec. -/
structure SpecAccum where
  accum_num_log : ℤ := 0
  accum_den_log : ℤ := 0
  accum_num_non_log : ℤ := 0
  accum_den_non_log : ℤ := 0
  accum_x : ℤ := 0
  accum_x2 : ℤ := 0
  num_accum_x : ℤ := 0
deriving DecidableEq, Repr

/-- Spec §4.3 per-pixel computation, transcribed step by step. -/
def spec_statistic_pixel (logTable : ℕ → ℕ)
    (mu1_32 mu2_32 ref_sq dis_sq ref_dis : ℕ) (a : SpecAccum) : SpecAccum :=
  let mu1_sq := spec_round64_shift32 (mu1_32 * mu1_32)
  let mu2_sq := spec_round64_shift32 (mu2_32 * mu2_32)
  let mu1_mu2 := spec_round64_shift32 (mu1_32 * mu2_32)
  let sigma1_sq := i32 (ref_sq + 4294967296 - mu1_sq)
  let sigma2_sq := i32 (dis_sq + 4294967296 - mu2_sq)
  if sigma1_sq < sigma_nsq then
    { a with accum_num_non_log := a.accum_num_non_log + sigma2_sq,
             accum_den_non_log := a.accum_den_non_log + 1 }
  else
    let log_den_stage1 := u32z (sigma_nsq + sigma1_sq)
    let m := spec_norm32 log_den_stage1
    let den_val : ℤ := logTable m.1
    let a := { a with accum_x := a.accum_x + m.2, num_accum_x := a.num_accum_x + 1 }
    let sigma12 := i32 (ref_dis + 4294967296 - mu1_mu2)
    if sigma12 < 0 then
      { a with accum_num_log := a.accum_num_log + 0,
               accum_den_log := a.accum_den_log + den_val }
    else
      let numer1 : ℤ := i32wrap (sigma2_sq + sigma_nsq)
      let numer1_tmp : ℤ := numer1 * sigma1_sq
      let n1 := spec_norm64 (u64z numer1_tmp)
      let numlog := n1.1
      let x1 := n1.2
      let denom : ℤ := numer1_tmp - sigma12 * sigma12
      if 0 < denom then
        let n2 := spec_norm64 (u64z denom)
        let num_val : ℤ := (logTable numlog : ℤ) - (logTable n2.1 : ℤ)
        { a with accum_x2 := a.accum_x2 + (n2.2 - x1),
                 accum_num_log := a.accum_num_log + num_val,
                 accum_den_log := a.accum_den_log + den_val }
      else
        { a with accum_num_non_log := a.accum_num_non_log + sigma2_sq,
                 accum_den_non_log := a.accum_den_non_log + 1 }

/-- Spec §4.3 accumulators over all pixels of the valid area. -/
def spec_statistic_accum (logTable : ℕ → ℕ) (mu1 mu2 xx yy xy : ℤ → ℤ → ℕ)
    (w h : ℕ) : SpecAccum :=
  (List.range h).foldl
    (fun acc (i : ℕ) =>
      (List.range w).foldl
        (fun acc (j : ℕ) =>
          spec_statistic_pixel logTable (u32 (mu1 i j)) (u32 (mu2 i j))
            (u32 (xx i j)) (u32 (yy i j)) (u32 (xy i j)) acc)
        acc)
    {}

/-- Spec §4.3 reduction formula for `num`, exactly as displayed in the
claim: `accum_num_log / 2048.0 + accum_x2 +
(accum_den_non_log − (accum_num_non_log / 16384.0) / 65025.0)`. -/
def spec_num (a : SpecAccum) : ℚ :=
  (a.accum_num_log : ℚ) / 2048 + (a.accum_x2 : ℚ)
    + ((a.accum_den_non_log : ℚ) - ((a.accum_num_non_log : ℚ) / 16384) / 65025)

/-- Spec §4.3 reduction formula for `den`:
`accum_den_log / 2048.0 − (accum_x + num_accum_x · 17) + accum_den_non_log`. -/
def spec_den (a : SpecAccum) : ℚ :=
  (a.accum_den_log : ℚ) / 2048 - ((a.accum_x : ℚ) + (a.num_accum_x : ℚ) * 17)
    + (a.accum_den_non_log : ℚ)

/-- Spec §4.2 shift schedule: vertical-pass shift for the means. -/
def spec_shift_VP (scale B : ℕ) : ℕ := if scale = 0 then B else 16

/-- Spec §4.2 shift schedule: vertical-pass rounding constant for the means
(`1 << (B − 1)` at scale 0, else 32768). -/
def spec_round_VP (scale B : ℕ) : ℕ := if scale = 0 then 2 ^ (B - 1) else 32768

/-- Spec §4.2 shift schedule: vertical-pass shift for the quadratic terms
(`2·(B − 8)` at scale 0, else 16). -/
def spec_shift_VPsq (scale B : ℕ) : ℕ := if scale = 0 then 2 * (B - 8) else 16

/-- Spec §4.2 shift schedule: vertical-pass rounding constant for the
quadratic terms (`1 << (2·(B − 8) − 1)`, `0` when `B = 8`; else 32768). -/
def spec_round_VPsq (scale B : ℕ) : ℕ :=
  if scale = 0 then (if B = 8 then 0 else 2 ^ (2 * (B - 8) - 1)) else 32768

/-!  Concrete inputs used by counterexamples and witnesses. -/

/-- A constant pixel plane. -/
def constPlane (c : ℕ) : ℤ → ℤ → ℕ := fun _ _ => c

/-- A single-row plane given by a list of samples. -/
def rowPlane (row : List ℕ) : ℤ → ℤ → ℕ := fun _ j => row.getD j.toNat 0

/-- `sigma1_sq` of `vif_statistic` at a pixel, as a function of the planes. -/
def sigma1_sq_at (mu1 xx : ℤ → ℤ → ℕ) (i j : ℤ) : ℤ :=
  i32 (u32 (xx i j) + 4294967296 - ((u32 (mu1 i j) * u32 (mu1 i j) + 2147483648) >>> 32))

/-- `sigma2_sq` of `vif_statistic` at a pixel. -/
def sigma2_sq_at (mu2 yy : ℤ → ℤ → ℕ) (i j : ℤ) : ℤ :=
  i32 (u32 (yy i j) + 4294967296 - ((u32 (mu2 i j) * u32 (mu2 i j) + 2147483648) >>> 32))

/-- `sigma12` of `vif_statistic` at a pixel. -/
def sigma12_at (mu1 mu2 xy : ℤ → ℤ → ℕ) (i j : ℤ) : ℤ :=
  i32 (u32 (xy i j) + 4294967296 - ((u32 (mu1 i j) * u32 (mu2 i j) + 2147483648) >>> 32))

/-- The `denom` of the high-variance branch at a pixel. -/
def denom_at (mu1 mu2 xx yy xy : ℤ → ℤ → ℕ) (i j : ℤ) : ℤ :=
  i32wrap (sigma2_sq_at mu2 yy i j + sigma_nsq) * sigma1_sq_at mu1 xx i j
    - sigma12_at mu1 mu2 xy i j * sigma12_at mu1 mu2 xy i j

/-- A pixel is degenerate when it reaches the high-variance branch with
`sigma12 ≥ 0` but `denom ≤ 0` (the "temporary patch to prevent NaN" path
of the source). -/
def degenerate_at (mu1 mu2 xx yy xy : ℤ → ℤ → ℕ) (i j : ℤ) : Prop :=
  sigma_nsq ≤ sigma1_sq_at mu1 xx i j ∧ 0 ≤ sigma12_at mu1 mu2 xy i j ∧
    denom_at mu1 mu2 xx yy xy i j ≤ 0

/-- The normalized 16-bit mantissa produced by the 64-bit normalizer for a
nonzero input: the top 16 bits of `v`. -/
def m64 (v : ℕ) : ℕ :=
  if bitlen v ≤ 16 then v <<< (16 - bitlen v) else v >>> (bitlen v - 16)

/-- The integer log estimate a high-variance pixel contributes per 64-bit
normalizer result: `LogTable[mantissa] - 2048 * x ≈ 2048 * log2 v`. -/
def g64 (logv : ℕ → ℕ) (v : ℕ) : ℤ :=
  (logv (m64 v) : ℤ) + 2048 * ((bitlen v : ℤ) - 16)

/-- Field-for-field correspondence between the source-side and spec-side
accumulator records. -/
def toSpecAccum (a : VifAccum) : SpecAccum :=
  { accum_num_log := a.accum_num_log
    accum_den_log := a.accum_den_log
    accum_num_non_log := a.accum_num_non_log
    accum_den_non_log := a.accum_den_non_log
    accum_x := a.accum_x
    accum_x2 := a.accum_x2
    num_accum_x := a.num_accum_x }

/-- The `log_values` indices read by one pixel of `vif_statistic`, in
order: the high-variance branch always reads `log_den1` (line 460 of the
source), and reads `numlog` and `denlog` exactly when `sigma12 ≥ 0` and
`denom > 0`; the low-variance branch reads nothing. -/
def vif_statistic_pixel_reads (mu1_val mu2_val xx_filt_val yy_filt_val xy_filt_val : ℕ) : List ℕ :=
  let mu1_sq_val := (mu1_val * mu1_val + 2147483648) >>> 32
  let mu2_sq_val := (mu2_val * mu2_val + 2147483648) >>> 32
  let mu1_mu2_val := (mu1_val * mu2_val + 2147483648) >>> 32
  let sigma1_sq := i32 (xx_filt_val + 4294967296 - mu1_sq_val)
  let sigma2_sq := i32 (yy_filt_val + 4294967296 - mu2_sq_val)
  if sigma_nsq ≤ sigma1_sq then
    let sigma12 := i32 (xy_filt_val + 4294967296 - mu1_mu2_val)
    let log_den_stage1 : ℕ := u32z (sigma_nsq + sigma1_sq)
    let ng := (integer_get_best_16bits_opt_greater log_den_stage1).getD (0, 0)
    if 0 ≤ sigma12 then
      let numer1 : ℤ := i32wrap (sigma2_sq + sigma_nsq)
      let numer1_tmp : ℤ := numer1 * sigma1_sq
      let nl := (integer_get_best_16bits_opt_64 (u64z numer1_tmp)).getD (0, 0)
      let denom : ℤ := numer1_tmp - sigma12 * sigma12
      if 0 < denom then
        let dl := (integer_get_best_16bits_opt_64 (u64z denom)).getD (0, 0)
        [ng.1, nl.1, dl.1]
      else [ng.1]
    else [ng.1]
  else []

/-!  ## Theorems -/

/-- `sigma1_sq` (and, with the `mu2`/`yy` values, `sigma2_sq`) of
`vif_statistic` as a function of the 32-bit pixel values. -/
def sigma1v (m1 X : ℕ) : ℤ :=
  i32 (X + 4294967296 - ((m1 * m1 + 2147483648) >>> 32))

/-- `sigma12` of `vif_statistic` as a function of the 32-bit pixel values. -/
def sigma12v (m1 m2 Z : ℕ) : ℤ :=
  i32 (Z + 4294967296 - ((m1 * m2 + 2147483648) >>> 32))

/-- `denom` of the high-variance branch as a function of pixel values. -/
def denomv (m1 m2 X Y Z : ℕ) : ℤ :=
  i32wrap (sigma1v m2 Y + sigma_nsq) * sigma1v m1 X - sigma12v m1 m2 Z * sigma12v m1 m2 Z

/-- The numerator reduction of `vif_statistic` as a function of the
accumulator (the first component of `vif_statistic_reduce`). -/
def numQ (a : VifAccum) : ℚ :=
  (a.accum_num_log : ℚ) / 2048 + (a.accum_x2 : ℚ)
    + ((a.accum_den_non_log : ℚ) - ((a.accum_num_non_log : ℚ) / 16384) / 65025)

/-- The denominator reduction of `vif_statistic` as a function of the
accumulator (the second component of `vif_statistic_reduce`). -/
def denQ (a : VifAccum) : ℚ :=
  (a.accum_den_log : ℚ) / 2048 - ((a.accum_x : ℚ) + (a.num_accum_x : ℚ) * 17)
    + (a.accum_den_non_log : ℚ)

theorem list_range_four : List.range 4 = [0, 1, 2, 3] := rfl

/-- C2.  For every frame pair (any planes, dimensions, bit depth, table,
frame index and sink), `extract` appends exactly four values, in scale
order 0,1,2,3, under the exact key strings (single quotes, `\x27`,
included), and the value appended for scale `s` is `num_s / den_s` of the
per-scale statistic pairs. -/
theorem C2_extract_emits_four_keyed_ratios
    (refP disP : ℤ → ℤ → ℕ) (w h B : ℕ) (logv : ℕ → ℕ) (index : ℕ)
    (sink : String → ℚ → ℕ → ℤ) :
    (extract refP disP w h B logv index sink).2 =
      [("\x27VMAF_feature_vif_scale0_integer_score\x27",
        ((extract_scores refP disP w h B logv).getD 0 (0, 0)).1
          / ((extract_scores refP disP w h B logv).getD 0 (0, 0)).2, index),
       ("\x27VMAF_feature_vif_scale1_integer_score\x27",
        ((extract_scores refP disP w h B logv).getD 1 (0, 0)).1
          / ((extract_scores refP disP w h B logv).getD 1 (0, 0)).2, index),
       ("\x27VMAF_feature_vif_scale2_integer_score\x27",
        ((extract_scores refP disP w h B logv).getD 2 (0, 0)).1
          / ((extract_scores refP disP w h B logv).getD 2 (0, 0)).2, index),
       ("\x27VMAF_feature_vif_scale3_integer_score\x27",
        ((extract_scores refP disP w h B logv).getD 3 (0, 0)).1
          / ((extract_scores refP disP w h B logv).getD 3 (0, 0)).2, index)] := by
  rfl

theorem bitlenAux_zero (fuel : ℕ) : bitlenAux fuel 0 = 0 := by
  cases fuel <;> simp [bitlenAux]

theorem bitlenAux_of (fuel k n : ℕ) (hk : k < fuel) (h1 : 2 ^ k ≤ n)
    (h2 : n < 2 ^ (k + 1)) : bitlenAux fuel n = k + 1 := by
  induction fuel generalizing k n with
  | zero => omega
  | succ f ih =>
    have hn : n ≠ 0 := by
      have : (1 : ℕ) ≤ 2 ^ k := Nat.one_le_two_pow
      omega
    rw [bitlenAux, if_neg hn]
    cases k with
    | zero =>
      have : n = 1 := by
        norm_num at h1 h2
        omega
      subst this
      simp [bitlenAux_zero]
    | succ k' =>
      have hdiv1 : 2 ^ k' ≤ n / 2 := by
        have : 2 ^ k' * 2 ≤ n := by
          rw [← pow_succ]; exact h1
        omega
      have hdiv2 : n / 2 < 2 ^ (k' + 1) := by
        have : n < 2 ^ (k' + 1) * 2 := by
          rw [← pow_succ]; exact h2
        omega
      rw [ih k' (n / 2) (by omega) hdiv1 hdiv2]

theorem bitlen_of (k n : ℕ) (hk : k < 64) (h1 : 2 ^ k ≤ n)
    (h2 : n < 2 ^ (k + 1)) : bitlen n = k + 1 :=
  bitlenAux_of 64 k n hk h1 h2

theorem bitlenAux_bounds (fuel n : ℕ) (h0 : 1 ≤ n) (h : n < 2 ^ fuel) :
    2 ^ (bitlenAux fuel n - 1) ≤ n ∧ n < 2 ^ bitlenAux fuel n := by
  induction fuel generalizing n with
  | zero => omega
  | succ f ih =>
    have hn : n ≠ 0 := by omega
    rw [bitlenAux, if_neg hn]
    by_cases h1 : n = 1
    · subst h1; simp [bitlenAux_zero]
    · have hd0 : 1 ≤ n / 2 := by omega
      have hdf : n / 2 < 2 ^ f := by
        have : n / 2 < 2 ^ (f + 1) / 2 + 1 := by omega
        have h2 : 2 ^ (f + 1) = 2 ^ f * 2 := by rw [pow_succ]
        omega
      obtain ⟨ha, hb⟩ := ih (n / 2) hd0 hdf
      have hpos : 1 ≤ bitlenAux f (n / 2) := by
        by_contra hc
        have : bitlenAux f (n / 2) = 0 := by omega
        rw [this] at hb
        omega
      constructor
      · have : 2 ^ (bitlenAux f (n / 2) + 1 - 1) = 2 ^ (bitlenAux f (n / 2) - 1) * 2 := by
          rw [← pow_succ]
          congr 1
          omega
        rw [this]
        omega
      · have : 2 ^ (bitlenAux f (n / 2) + 1) = 2 ^ bitlenAux f (n / 2) * 2 := by
          rw [pow_succ]
        omega

theorem bitlen_bounds (n : ℕ) (h0 : 1 ≤ n) (h : n < 2 ^ 64) :
    2 ^ (bitlen n - 1) ≤ n ∧ n < 2 ^ bitlen n :=
  bitlenAux_bounds 64 n h0 h

theorem bitlen_pos (n : ℕ) (h0 : 1 ≤ n) (h : n < 2 ^ 64) : 1 ≤ bitlen n := by
  by_contra hc
  have hz : bitlen n = 0 := by omega
  have := (bitlen_bounds n h0 h).2
  rw [hz] at this
  simp at this
  omega

theorem i32_range (x : ℕ) : -2147483648 ≤ i32 x ∧ i32 x < 2147483648 := by
  unfold i32
  have hm : x % 4294967296 < 4294967296 := Nat.mod_lt _ (by norm_num)
  split
  · have h : x % 4294967296 < 2147483648 := by assumption
    constructor
    · have : (0 : ℤ) ≤ (x % 4294967296 : ℕ) := by positivity
      omega
    · exact_mod_cast h
  · have h : ¬ x % 4294967296 < 2147483648 := by assumption
    have hc : ((x % 4294967296 : ℕ) : ℤ) < 4294967296 := by exact_mod_cast hm
    have hc2 : (2147483648 : ℤ) ≤ ((x % 4294967296 : ℕ) : ℤ) := by
      have := Nat.le_of_not_lt h
      exact_mod_cast this
    omega

theorem i32wrap_range (z : ℤ) : -2147483648 ≤ i32wrap z ∧ i32wrap z < 2147483648 := by
  unfold i32wrap
  have h1 : 0 ≤ (z + 2147483648) % 4294967296 := Int.emod_nonneg _ (by norm_num)
  have h2 : (z + 2147483648) % 4294967296 < 4294967296 := Int.emod_lt_of_pos _ (by norm_num)
  omega

theorem u32z_of_nonneg_lt (z : ℤ) (h0 : 0 ≤ z) (h : z < 4294967296) :
    (u32z z : ℤ) = z := by
  unfold u32z
  rw [Int.emod_eq_of_lt h0 h]
  exact Int.toNat_of_nonneg h0

theorem bitlen_le_of_lt (v k : ℕ) (hk : k ≤ 64) (h : v < 2 ^ k) : bitlen v ≤ k := by
  rcases Nat.eq_zero_or_pos v with hv | hv
  · subst hv
    simp [bitlen, bitlenAux_zero]
  · by_contra hc
    have hb := (bitlen_bounds v hv (lt_of_lt_of_le h (Nat.pow_le_pow_right (by norm_num) hk))).1
    have : 2 ^ k ≤ 2 ^ (bitlen v - 1) := Nat.pow_le_pow_right (by norm_num) (by omega)
    omega

theorem le_bitlen_of_le (v k : ℕ) (hv : v < 2 ^ 64) (h : 2 ^ k ≤ v) : k + 1 ≤ bitlen v := by
  have h0 : 1 ≤ v := le_trans Nat.one_le_two_pow h
  have hb := (bitlen_bounds v h0 hv).2
  by_contra hc
  have : 2 ^ bitlen v ≤ 2 ^ k := Nat.pow_le_pow_right (by norm_num) (by omega)
  omega

/-- Top-16-bit extraction bounds: for `16 ≤ bitlen v`,
`v >>> (bitlen v - 16)` lies in `[2^15, 2^16)`. -/
theorem shift_top16_range (v : ℕ) (h1 : 32768 ≤ v) (h2 : v < 2 ^ 64) :
    32768 ≤ v >>> (bitlen v - 16) ∧ v >>> (bitlen v - 16) < 65536 := by
  have hb : 16 ≤ bitlen v := le_bitlen_of_le v 15 h2 h1
  obtain ⟨ha, hbu⟩ := bitlen_bounds v (by omega) h2
  have hp : 0 < 2 ^ (bitlen v - 16) := Nat.pos_pow_of_pos _ (by norm_num)
  rw [Nat.shiftRight_eq_div_pow]
  constructor
  · rw [Nat.le_div_iff_mul_le hp]
    calc 32768 * 2 ^ (bitlen v - 16) = 2 ^ 15 * 2 ^ (bitlen v - 16) := by norm_num
    _ = 2 ^ (bitlen v - 1) := by rw [← pow_add]; congr 1; omega
    _ ≤ v := ha
  · rw [Nat.div_lt_iff_lt_mul hp]
    calc v < 2 ^ bitlen v := hbu
    _ = 2 ^ 16 * 2 ^ (bitlen v - 16) := by rw [← pow_add]; congr 1; omega
    _ = 65536 * 2 ^ (bitlen v - 16) := by norm_num

/-- For inputs of at least 16 bits the `greater` normalizer agrees with the
spec's `norm32`: mantissa `v >> (bitlen v - 16)`, exponent
`16 - bitlen v`. -/
theorem opt_greater_eq (v : ℕ) (h1 : 32768 ≤ v) (h2 : v < 2 ^ 64) :
    integer_get_best_16bits_opt_greater v = some (v >>> (bitlen v - 16), 16 - (bitlen v : ℤ)) := by
  have hb : 16 ≤ bitlen v := le_bitlen_of_le v 15 h2 h1
  unfold integer_get_best_16bits_opt_greater
  rw [if_neg (by omega)]
  have ht : ((bitlen v : ℤ) - 16).toNat = bitlen v - 16 := by omega
  rw [ht]
  simp only [Option.some.injEq, Prod.mk.injEq]
  exact ⟨trivial, by ring⟩

theorem spec_norm32_eq (v : ℕ) (h1 : 32768 ≤ v) (h2 : v < 2 ^ 64) :
    spec_norm32 v = (v >>> (bitlen v - 16), 16 - (bitlen v : ℤ)) := by
  have hb : 16 ≤ bitlen v := le_bitlen_of_le v 15 h2 h1
  unfold spec_norm32
  have he : (16 - (32 - (bitlen v : ℤ))) = (bitlen v : ℤ) - 16 := by ring
  simp only [he]
  have ht : ((bitlen v : ℤ) - 16).toNat = bitlen v - 16 := by omega
  rw [ht]
  simp only [Prod.mk.injEq]
  exact ⟨trivial, by ring⟩

theorem opt_greater_getD_eq_spec (v : ℕ) (h1 : 32768 ≤ v) (h2 : v < 2 ^ 64) :
    (integer_get_best_16bits_opt_greater v).getD (0, 0) = spec_norm32 v := by
  rw [opt_greater_eq v h1 h2, spec_norm32_eq v h1 h2]
  rfl

/-- Shifting a short value up to 16 bits keeps it below `2^16`. -/
theorem shift_up16_lt (v : ℕ) (h1 : 1 ≤ v) (h2 : v < 2 ^ 64) (hc : bitlen v ≤ 16) :
    v <<< (16 - bitlen v) < 65536 := by
  obtain ⟨ha, hb⟩ := bitlen_bounds v h1 h2
  rw [Nat.shiftLeft_eq]
  calc v * 2 ^ (16 - bitlen v) < 2 ^ bitlen v * 2 ^ (16 - bitlen v) := by
        have hp : 0 < 2 ^ (16 - bitlen v) := Nat.pos_pow_of_pos _ (by norm_num)
        exact Nat.mul_lt_mul_of_lt_of_le hb (le_refl _) hp
  _ = 2 ^ 16 := by rw [← pow_add]; congr 1; omega
  _ = 65536 := by norm_num

/-- Shifting a long value down to its top 16 bits keeps it below `2^16`. -/
theorem shift_down16_lt (v : ℕ) (h1 : 1 ≤ v) (h2 : v < 2 ^ 64) :
    v >>> (bitlen v - 16) < 65536 := by
  obtain ⟨ha, hb⟩ := bitlen_bounds v h1 h2
  rcases Nat.lt_or_ge (bitlen v) 16 with hc | hc
  · have : v < 65536 := by
      have : 2 ^ bitlen v ≤ 2 ^ 16 := Nat.pow_le_pow_right (by norm_num) (by omega)
      have h16 : (2 : ℕ) ^ 16 = 65536 := by norm_num
      omega
    calc v >>> (bitlen v - 16) ≤ v := by
          rw [Nat.shiftRight_eq_div_pow]; exact Nat.div_le_self _ _
    _ < 65536 := this
  · have hp : 0 < 2 ^ (bitlen v - 16) := Nat.pos_pow_of_pos _ (by norm_num)
    rw [Nat.shiftRight_eq_div_pow, Nat.div_lt_iff_lt_mul hp]
    calc v < 2 ^ bitlen v := hb
    _ = 2 ^ 16 * 2 ^ (bitlen v - 16) := by rw [← pow_add]; congr 1; omega
    _ = 65536 * 2 ^ (bitlen v - 16) := by norm_num

/-- The 64-bit normalizer on a nonzero input: mantissa `m64 v` (the top 16
bits of `v`), exponent `16 - bitlen v`. -/
theorem opt_64_eq (v : ℕ) (h1 : 1 ≤ v) (h2 : v < 2 ^ 64) :
    integer_get_best_16bits_opt_64 v = some (m64 v, 16 - (bitlen v : ℤ)) := by
  have hble : bitlen v ≤ 64 := bitlen_le_of_lt v 64 (by norm_num) h2
  have hbpos : 1 ≤ bitlen v := bitlen_pos v h1 h2
  obtain ⟨ha, hb⟩ := bitlen_bounds v h1 h2
  unfold integer_get_best_16bits_opt_64 m64
  rw [if_neg (by omega)]
  rcases lt_trichotomy (bitlen v) 16 with hc | hc | hc
  · rw [if_pos (by omega), if_pos (by omega)]
    have he : 64 - bitlen v - 48 = 16 - bitlen v := by omega
    rw [he]
    have hu : u16 (v <<< (16 - bitlen v)) = v <<< (16 - bitlen v) :=
      Nat.mod_eq_of_lt (shift_up16_lt v h1 h2 (by omega))
    rw [hu]
    simp only [Option.some.injEq, Prod.mk.injEq]
    exact ⟨trivial, by push_cast; omega⟩
  · have hvlt : v < 65536 := by
      have h16 : (2 : ℕ) ^ 16 = 65536 := by norm_num
      rw [hc, h16] at hb
      exact hb
    rw [if_neg (by omega), if_neg (by omega)]
    have hge : v >>> 16 = 0 := by
      rw [Nat.shiftRight_eq_div_pow]
      exact Nat.div_eq_of_lt (by norm_num; omega)
    rw [if_neg (by simp [hge]), if_pos (by omega)]
    have hz : 16 - bitlen v = 0 := by omega
    rw [hz]
    have hu : u16 v = v := Nat.mod_eq_of_lt hvlt
    simp only [Nat.shiftLeft_zero, hu, hc, Option.some.injEq, Prod.mk.injEq]
    norm_num
  · rw [if_neg (by omega)]
    have hu : u16 (v >>> (bitlen v - 16)) = v >>> (bitlen v - 16) :=
      Nat.mod_eq_of_lt (shift_down16_lt v h1 h2)
    rcases Nat.lt_or_ge (64 - bitlen v) 47 with hcc | hcc
    · rw [if_pos hcc, if_neg (by omega)]
      have he : 48 - (64 - bitlen v) = bitlen v - 16 := by omega
      rw [he, hu]
      simp only [Option.some.injEq, Prod.mk.injEq]
      exact ⟨trivial, by push_cast; omega⟩
    · have hc17 : bitlen v = 17 := by omega
      rw [if_neg (by omega)]
      have hge : v >>> 16 ≠ 0 := by
        rw [Nat.shiftRight_eq_div_pow]
        have h16 : 2 ^ 16 ≤ v := by
          have he : 2 ^ (bitlen v - 1) = 2 ^ 16 := by rw [hc17]
          omega
        have := (Nat.one_le_div_iff (Nat.pos_pow_of_pos 16 (by norm_num))).2 h16
        omega
      rw [if_pos hge, if_neg (by omega)]
      have he : bitlen v - 16 = 1 := by omega
      rw [← he, hu]
      simp only [Option.some.injEq, Prod.mk.injEq]
      exact ⟨trivial, by rw [hc17]; norm_num⟩

/-- Mantissa range of the 64-bit normalizer: `m64 v ∈ [2^15, 2^16)` for
every nonzero input. -/
theorem m64_range (v : ℕ) (h1 : 1 ≤ v) (h2 : v < 2 ^ 64) :
    32768 ≤ m64 v ∧ m64 v < 65536 := by
  have hbpos : 1 ≤ bitlen v := bitlen_pos v h1 h2
  obtain ⟨ha, hb⟩ := bitlen_bounds v h1 h2
  unfold m64
  split
  · refine ⟨?_, ?_⟩
    · rw [Nat.shiftLeft_eq]
      calc (32768 : ℕ) = 2 ^ 15 := by norm_num
      _ = 2 ^ (bitlen v - 1) * 2 ^ (16 - bitlen v) := by rw [← pow_add]; congr 1; omega
      _ ≤ v * 2 ^ (16 - bitlen v) := Nat.mul_le_mul_right _ ha
    · exact shift_up16_lt v h1 h2 (by omega)
  · have hc : 16 < bitlen v := by omega
    refine ⟨?_, shift_down16_lt v h1 h2⟩
    have hp : 0 < 2 ^ (bitlen v - 16) := Nat.pos_pow_of_pos _ (by norm_num)
    rw [Nat.shiftRight_eq_div_pow, Nat.le_div_iff_mul_le hp]
    calc 32768 * 2 ^ (bitlen v - 16) = 2 ^ 15 * 2 ^ (bitlen v - 16) := by norm_num
    _ = 2 ^ (bitlen v - 1) := by rw [← pow_add]; congr 1; omega
    _ ≤ v := ha

theorem spec_norm64_eq (v : ℕ) (h1 : 1 ≤ v) (h2 : v < 2 ^ 64) :
    spec_norm64 v = (m64 v, 16 - (bitlen v : ℤ)) := by
  have hble : bitlen v ≤ 64 := bitlen_le_of_lt v 64 (by norm_num) h2
  have hbpos : 1 ≤ bitlen v := bitlen_pos v h1 h2
  obtain ⟨ha, hb⟩ := bitlen_bounds v h1 h2
  have hshift : v >>> 16 = 0 ↔ bitlen v ≤ 16 := by
    rw [Nat.shiftRight_eq_div_pow]
    rw [Nat.div_eq_zero_iff (Nat.pos_pow_of_pos 16 (by norm_num))]
    constructor
    · intro hv
      by_contra hcc
      have : 2 ^ 16 ≤ 2 ^ (bitlen v - 1) := Nat.pow_le_pow_right (by norm_num) (by omega)
      omega
    · intro hbb
      have : 2 ^ bitlen v ≤ 2 ^ 16 := Nat.pow_le_pow_right (by norm_num) hbb
      omega
  rcases lt_trichotomy (bitlen v) 16 with hc | hc | hc
  · have hA : (48 : ℤ) < 64 - (bitlen v : ℤ) := by omega
    simp only [spec_norm64, m64, if_pos hA, if_pos (show bitlen v ≤ 16 by omega)]
    rw [show ((64 : ℤ) - (bitlen v : ℤ) - 48).toNat = 16 - bitlen v by omega]
    rw [show u16 (v <<< (16 - bitlen v)) = v <<< (16 - bitlen v) from
      Nat.mod_eq_of_lt (shift_up16_lt v h1 h2 (by omega))]
    simp only [Prod.mk.injEq]
    exact ⟨trivial, by omega⟩
  · have hA : ¬ ((48 : ℤ) < 64 - (bitlen v : ℤ)) := by omega
    have hB : ¬ ((64 : ℤ) - (bitlen v : ℤ) < 47) := by omega
    have hC : ¬ (v >>> 16 ≠ 0) := by simp [hshift]; omega
    simp only [spec_norm64, m64, if_neg hA, if_neg hB, if_neg hC,
      if_pos (show bitlen v ≤ 16 by omega)]
    rw [show 16 - bitlen v = 0 by omega]
    have hvlt : v < 65536 := by
      have h16 : (2 : ℕ) ^ 16 = 65536 := by norm_num
      rw [hc, h16] at hb
      exact hb
    simp only [Nat.shiftLeft_zero, Prod.mk.injEq]
    refine ⟨Nat.mod_eq_of_lt hvlt, by omega⟩
  · have hD : ¬ (bitlen v ≤ 16) := by omega
    have hu : u16 (v >>> (bitlen v - 16)) = v >>> (bitlen v - 16) :=
      Nat.mod_eq_of_lt (shift_down16_lt v h1 h2)
    rcases Nat.lt_or_ge 17 (bitlen v) with hcc | hcc
    · have hA : ¬ ((48 : ℤ) < 64 - (bitlen v : ℤ)) := by omega
      have hB : (64 : ℤ) - (bitlen v : ℤ) < 47 := by omega
      simp only [spec_norm64, m64, if_neg hA, if_pos hB, if_neg hD]
      rw [show ((48 : ℤ) - (64 - (bitlen v : ℤ))).toNat = bitlen v - 16 by omega, hu]
      simp only [Prod.mk.injEq]
      exact ⟨trivial, by ring⟩
    · have hc17 : bitlen v = 17 := by omega
      have hA : ¬ ((48 : ℤ) < 64 - (bitlen v : ℤ)) := by omega
      have hB : ¬ ((64 : ℤ) - (bitlen v : ℤ) < 47) := by omega
      have hC : v >>> 16 ≠ 0 := by
        intro hzz
        have := hshift.1 hzz
        omega
      simp only [spec_norm64, m64, if_neg hA, if_neg hB, if_pos hC, if_neg hD]
      rw [show bitlen v - 16 = 1 by omega] at hu ⊢
      rw [hu]
      simp only [Prod.mk.injEq]
      exact ⟨trivial, by omega⟩

theorem opt_64_getD_eq_spec (v : ℕ) (h1 : 1 ≤ v) (h2 : v < 2 ^ 64) :
    (integer_get_best_16bits_opt_64 v).getD (0, 0) = spec_norm64 v := by
  rw [opt_64_eq v h1 h2, spec_norm64_eq v h1 h2]
  rfl

theorem u64z_of_nonneg_lt (z : ℤ) (h0 : 0 ≤ z) (h : z < 18446744073709551616) :
    (u64z z : ℤ) = z := by
  unfold u64z
  rw [Int.emod_eq_of_lt h0 h]
  exact Int.toNat_of_nonneg h0

/-- One pixel of the source statistic maps to one pixel of the spec
statistic under the accumulator correspondence. -/
theorem pixel_toSpec (logv : ℕ → ℕ) (m1 m2 xx yy xy : ℕ) (a : VifAccum) :
    toSpecAccum (vif_statistic_pixel logv m1 m2 xx yy xy a) =
      spec_statistic_pixel logv m1 m2 xx yy xy (toSpecAccum a) := by
  have hs1 := i32_range (xx + 4294967296 - (m1 * m1 + 2147483648) >>> 32)
  have hs2 := i32_range (yy + 4294967296 - (m2 * m2 + 2147483648) >>> 32)
  simp only [vif_statistic_pixel, spec_statistic_pixel, spec_round64_shift32]
  set s1 := i32 (xx + 4294967296 - (m1 * m1 + 2147483648) >>> 32) with hs1d
  set s2 := i32 (yy + 4294967296 - (m2 * m2 + 2147483648) >>> 32) with hs2d
  set s12 := i32 (xy + 4294967296 - (m1 * m2 + 2147483648) >>> 32) with hs12d
  rcases lt_or_le s1 sigma_nsq with hlow | hhigh
  · rw [if_neg (not_le.2 hlow), if_pos hlow]
    rfl
  · rw [if_pos hhigh, if_neg (not_lt.2 hhigh)]
    have hnsq : sigma_nsq = 131072 := rfl
    have hvz : (u32z (sigma_nsq + s1) : ℤ) = sigma_nsq + s1 :=
      u32z_of_nonneg_lt _ (by omega) (by omega)
    have hv1 : 32768 ≤ u32z (sigma_nsq + s1) := by omega
    have hv2 : u32z (sigma_nsq + s1) < 2 ^ 64 := by
      have : (2 : ℤ) ^ 64 = 18446744073709551616 := by norm_num
      omega
    rw [opt_greater_getD_eq_spec _ hv1 hv2]
    rcases lt_or_le s12 0 with hneg | hpos
    · rw [if_neg (not_le.2 hneg), if_pos hneg]
      rfl
    · rw [if_pos hpos, if_neg (not_lt.2 hpos)]
      have hn1 := i32wrap_range (s2 + sigma_nsq)
      set numer1 := i32wrap (s2 + sigma_nsq) with hn1d
      have hs1nn : (0 : ℤ) ≤ s1 := le_trans (show (0 : ℤ) ≤ sigma_nsq by rw [hnsq]; norm_num) hhigh
      have hprod : numer1 * s1 < 18446744073709551616 := by
        have hb1 : numer1 * s1 ≤ 2147483648 * s1 :=
          mul_le_mul_of_nonneg_right (by omega) hs1nn
        have hb2 : (2147483648 : ℤ) * s1 < 2147483648 * 2147483648 := by
          have := hs1.2
          linarith
        linarith
      rcases lt_or_le 0 (numer1 * s1 - s12 * s12) with hden | hden
      · rw [if_pos hden, if_pos hden]
        have hss : (0 : ℤ) ≤ s12 * s12 := mul_self_nonneg s12
        have hnt : (0 : ℤ) < numer1 * s1 := by linarith
        have hzu : (u64z (numer1 * s1) : ℤ) = numer1 * s1 :=
          u64z_of_nonneg_lt _ (by linarith) hprod
        have h1n : 1 ≤ u64z (numer1 * s1) := by omega
        have h2n : u64z (numer1 * s1) < 2 ^ 64 := by
          have he : (2 : ℤ) ^ 64 = 18446744073709551616 := by norm_num
          omega
        have hzu2 : (u64z (numer1 * s1 - s12 * s12) : ℤ) = numer1 * s1 - s12 * s12 :=
          u64z_of_nonneg_lt _ (by linarith) (by linarith)
        have h1d : 1 ≤ u64z (numer1 * s1 - s12 * s12) := by omega
        have h2d : u64z (numer1 * s1 - s12 * s12) < 2 ^ 64 := by
          have he : (2 : ℤ) ^ 64 = 18446744073709551616 := by norm_num
          omega
        rw [opt_64_getD_eq_spec _ h1n h2n, opt_64_getD_eq_spec _ h1d h2d]
        rfl
      · simp only [if_neg (not_lt.2 hden)]
        rfl

theorem foldl_hom_list {α β ι : Type} (f : α → β) (op₁ : α → ι → α) (op₂ : β → ι → β)
    (h : ∀ a i, f (op₁ a i) = op₂ (f a) i) :
    ∀ (l : List ι) (a : α), f (l.foldl op₁ a) = l.foldl op₂ (f a) := by
  intro l
  induction l with
  | nil => intro a; rfl
  | cons x xs ih =>
    intro a
    simp only [List.foldl_cons]
    rw [← h a x]
    exact ih (op₁ a x)

/-- The whole accumulation loop of the source statistic corresponds to the
spec accumulators. -/
theorem accum_toSpec (logv : ℕ → ℕ) (mu1 mu2 xx yy xy : ℤ → ℤ → ℕ) (w h : ℕ) :
    toSpecAccum (vif_statistic_accum logv mu1 mu2 xx yy xy w h) =
      spec_statistic_accum logv mu1 mu2 xx yy xy w h := by
  unfold vif_statistic_accum spec_statistic_accum
  exact foldl_hom_list toSpecAccum
    (fun acc (i : ℕ) =>
      (List.range w).foldl
        (fun acc (j : ℕ) =>
          vif_statistic_pixel logv (u32 (mu1 i j)) (u32 (mu2 i j))
            (u32 (xx i j)) (u32 (yy i j)) (u32 (xy i j)) acc)
        acc)
    (fun acc (i : ℕ) =>
      (List.range w).foldl
        (fun acc (j : ℕ) =>
          spec_statistic_pixel logv (u32 (mu1 i j)) (u32 (mu2 i j))
            (u32 (xx i j)) (u32 (yy i j)) (u32 (xy i j)) acc)
        acc)
    (fun a i =>
      foldl_hom_list toSpecAccum _ _
        (fun a j => pixel_toSpec logv _ _ _ _ _ a) (List.range w) a)
    (List.range h) {}

/-- C3.  For every table and every set of input planes, the `(num, den)`
pair returned by the per-scale statistic equals exactly the spec's
reduction formulas `num = accum_num_log / 2048 + accum_x2 +
(accum_den_non_log - (accum_num_non_log / 16384) / 65025)` and
`den = accum_den_log / 2048 - (accum_x + num_accum_x * 17) +
accum_den_non_log`, evaluated on the accumulators defined by the
per-pixel branch rules of spec §4.3 over all pixels of the valid area. -/
theorem C3_statistic_reduction_formula (logv : ℕ → ℕ)
    (mu1 mu2 xx yy xy : ℤ → ℤ → ℕ) (w h : ℕ) :
    vif_statistic logv mu1 mu2 xx yy xy w h =
      (spec_num (spec_statistic_accum logv mu1 mu2 xx yy xy w h),
       spec_den (spec_statistic_accum logv mu1 mu2 xx yy xy w h)) := by
  unfold vif_statistic
  rw [← accum_toSpec]
  rfl

/-- C5.  For every scale and bit depth, the 16-bit statistic filter stores
`mu1_32`, `mu2_32` as the raw (unshifted) horizontal accumulators and the
three quadratic outputs as `(accum + 32768) >> 16`, while the vertical
pass uses the spec §4.2 schedule: at scale 0, shift `B` with rounding
`2^(B-1)` for the means and shift `2·(B-8)` with rounding
`2^(2·(B-8)-1)` (`0` when `B = 8`) for the quadratics; at scales 1..3,
shift 16 with rounding 32768 for both. -/
theorem C5_combined16_shift_schedule (filt : List ℕ) (refP disP : ℤ → ℤ → ℕ)
    (w h scale B : ℕ) (i j : ℤ) :
    vif_filter1d_combined_16 filt refP disP w h scale B i j =
      { mu1 := u32 (convTaps filt
          (fun jj => u16 ((u32 (convTaps filt (fun ii => u16 (refP ii jj)) i h
            + spec_round_VP scale B)) >>> spec_shift_VP scale B)) j w)
        mu2 := u32 (convTaps filt
          (fun jj => u16 ((u32 (convTaps filt (fun ii => u16 (disP ii jj)) i h
            + spec_round_VP scale B)) >>> spec_shift_VP scale B)) j w)
        rs := u32 ((u64 (convTaps filt
          (fun jj => u32 ((u64 (convTaps filt (fun ii => u16 (refP ii jj) * u16 (refP ii jj)) i h
            + spec_round_VPsq scale B)) >>> spec_shift_VPsq scale B)) j w + 32768)) >>> 16)
        ds := u32 ((u64 (convTaps filt
          (fun jj => u32 ((u64 (convTaps filt (fun ii => u16 (disP ii jj) * u16 (disP ii jj)) i h
            + spec_round_VPsq scale B)) >>> spec_shift_VPsq scale B)) j w + 32768)) >>> 16)
        rds := u32 ((u64 (convTaps filt
          (fun jj => u32 ((u64 (convTaps filt (fun ii => u16 (refP ii jj) * u16 (disP ii jj)) i h
            + spec_round_VPsq scale B)) >>> spec_shift_VPsq scale B)) j w + 32768)) >>> 16) } := by
  have hmc : 2 * (B - 8) = (B - 8) * 2 := mul_comm _ _
  simp only [vif_filter1d_combined_16, spec_round_VP, spec_shift_VP,
    spec_shift_VPsq, spec_round_VPsq, hmc]
  rcases eq_or_ne scale 0 with hs | hs
  · simp [hs]
  · simp [hs]

theorem C6_claim_counterexample :
    ¬ (∀ v : ℕ, 16384 ≤ v → v < 4294967296 →
        ∃ m x, integer_get_best_16bits_opt_greater v = some (m, x) ∧
          16384 ≤ m ∧ m < 65536) := by
  intro hc
  obtain ⟨m, x, hsome, _, _⟩ := hc 16384 (by norm_num) (by norm_num)
  rw [show integer_get_best_16bits_opt_greater 16384 = none from rfl] at hsome
  exact Option.noConfusion hsome

/-- C6 (amended).  `norm32` inverts denormalization only for inputs of at
least `2^15` (for `v ∈ [2^14, 2^15)` its shift count `16 - clz32 v` is
negative, which C leaves undefined): there the mantissa lies in
`[2^14, 2^16)`, the exponent is nonpositive, and shifting the mantissa
back recovers `v` up to the discarded low bits.  `norm64` does invert
denormalization for every `v ≥ 2^14`: mantissa in `[2^14, 2^16)`, and
shifting back by the recorded exponent recovers `v` exactly when the
input was left-shifted, and up to the discarded bits when right-shifted. -/
theorem C6_norms_invert_denormalization (v : ℕ) :
    (32768 ≤ v → v < 4294967296 →
      ∃ m x, integer_get_best_16bits_opt_greater v = some (m, x) ∧
        16384 ≤ m ∧ m < 65536 ∧ x ≤ 0 ∧
        m <<< (-x).toNat = v - v % 2 ^ (-x).toNat) ∧
    (16384 ≤ v → v < 18446744073709551616 →
      ∃ m x, integer_get_best_16bits_opt_64 v = some (m, x) ∧
        16384 ≤ m ∧ m < 65536 ∧
        (0 ≤ x → m >>> x.toNat = v) ∧
        (x < 0 → m <<< (-x).toNat = v - v % 2 ^ (-x).toNat)) := by
  constructor
  · intro h1 h2
    have h2' : v < 2 ^ 64 := by
      have : (4294967296 : ℕ) < 2 ^ 64 := by norm_num
      omega
    have hb : 16 ≤ bitlen v := le_bitlen_of_le v 15 h2' h1
    refine ⟨v >>> (bitlen v - 16), 16 - (bitlen v : ℤ), opt_greater_eq v h1 h2', ?_, ?_, by omega, ?_⟩
    · have := (shift_top16_range v h1 h2').1
      omega
    · exact (shift_top16_range v h1 h2').2
    · have ht : ((-(16 - (bitlen v : ℤ)))).toNat = bitlen v - 16 := by omega
      rw [ht, Nat.shiftLeft_eq, Nat.shiftRight_eq_div_pow]
      have hd := Nat.div_add_mod v (2 ^ (bitlen v - 16))
      have : v / 2 ^ (bitlen v - 16) * 2 ^ (bitlen v - 16) + v % 2 ^ (bitlen v - 16) = v := by
        rw [mul_comm]
        exact hd
      exact Nat.eq_sub_of_add_eq this
  · intro h1 h2
    have h2' : v < 2 ^ 64 := by
      have : (2 : ℕ) ^ 64 = 18446744073709551616 := by norm_num
      omega
    have h1' : 1 ≤ v := by omega
    refine ⟨m64 v, 16 - (bitlen v : ℤ), opt_64_eq v h1' h2', ?_, (m64_range v h1' h2').2, ?_, ?_⟩
    · have := (m64_range v h1' h2').1
      omega
    · intro hx
      have hble : bitlen v ≤ 16 := by omega
      have ht : ((16 : ℤ) - (bitlen v : ℤ)).toNat = 16 - bitlen v := by omega
      rw [ht]
      unfold m64
      rw [if_pos hble, Nat.shiftLeft_eq, Nat.shiftRight_eq_div_pow]
      exact Nat.mul_div_cancel v (Nat.pos_pow_of_pos _ (by norm_num))
    · intro hx
      have hbg : 16 < bitlen v := by omega
      have ht : (-(16 - (bitlen v : ℤ))).toNat = bitlen v - 16 := by omega
      rw [ht]
      unfold m64
      rw [if_neg (by omega), Nat.shiftLeft_eq, Nat.shiftRight_eq_div_pow]
      have hd := Nat.div_add_mod v (2 ^ (bitlen v - 16))
      have : v / 2 ^ (bitlen v - 16) * 2 ^ (bitlen v - 16) + v % 2 ^ (bitlen v - 16) = v := by
        rw [mul_comm]
        exact hd
      exact Nat.eq_sub_of_add_eq this

theorem C6_norms_witness :
    (∃ m x, integer_get_best_16bits_opt_greater 262144 = some (m, x) ∧
      16384 ≤ m ∧ m < 65536 ∧ x ≤ 0 ∧
      m <<< (-x).toNat = 262144 - 262144 % 2 ^ (-x).toNat) ∧
    (∃ m x, integer_get_best_16bits_opt_64 16384 = some (m, x) ∧
      16384 ≤ m ∧ m < 65536 ∧
      (0 ≤ x → m >>> x.toNat = 16384) ∧
      (x < 0 → m <<< (-x).toNat = 16384 - 16384 % 2 ^ (-x).toNat)) :=
  ⟨(C6_norms_invert_denormalization 262144).1 (by norm_num) (by norm_num),
   (C6_norms_invert_denormalization 16384).2 (by norm_num) (by norm_num)⟩

/-- C10.  Every `log_values` index read by the statistic's per-pixel
computation lies in `[2^15, 2^16) = [32768, 65535]`, inside the
initialized region `[32767, 65535]`: `log_den1` because its argument
`sigma_nsq + sigma1_sq` is at least `2^18` in the high-variance branch,
and `numlog`/`denlog` because their normalizer inputs are nonzero there
(`denom > 0` is guarded, and then `numer1_tmp = denom + sigma12² > 0`).
Entries below index 32767 are never read. -/
theorem C10_table_reads_in_initialized_range
    (m1 m2 xx yy xy : ℕ) (t : ℕ)
    (ht : t ∈ vif_statistic_pixel_reads m1 m2 xx yy xy) :
    32768 ≤ t ∧ t ≤ 65535 := by
  have hs1 := i32_range (xx + 4294967296 - (m1 * m1 + 2147483648) >>> 32)
  unfold vif_statistic_pixel_reads at ht
  simp only at ht
  set s1 := i32 (xx + 4294967296 - (m1 * m1 + 2147483648) >>> 32) with hs1d
  set s2 := i32 (yy + 4294967296 - (m2 * m2 + 2147483648) >>> 32) with hs2d
  set s12 := i32 (xy + 4294967296 - (m1 * m2 + 2147483648) >>> 32) with hs12d
  by_cases hhigh : sigma_nsq ≤ s1
  swap
  · rw [if_neg hhigh] at ht
    simp at ht
  · rw [if_pos hhigh] at ht
    have hnsq : sigma_nsq = 131072 := rfl
    have hvz : (u32z (sigma_nsq + s1) : ℤ) = sigma_nsq + s1 :=
      u32z_of_nonneg_lt _ (by omega) (by omega)
    have hv1 : 32768 ≤ u32z (sigma_nsq + s1) := by omega
    have hv2 : u32z (sigma_nsq + s1) < 2 ^ 64 := by
      have : (2 : ℤ) ^ 64 = 18446744073709551616 := by norm_num
      omega
    have hgd : (integer_get_best_16bits_opt_greater (u32z (sigma_nsq + s1))).getD (0, 0) =
        ((u32z (sigma_nsq + s1)) >>> (bitlen (u32z (sigma_nsq + s1)) - 16),
          16 - (bitlen (u32z (sigma_nsq + s1)) : ℤ)) := by
      rw [opt_greater_eq _ hv1 hv2]
      rfl
    have hgr := shift_top16_range (u32z (sigma_nsq + s1)) hv1 hv2
    have hng : 32768 ≤ ((integer_get_best_16bits_opt_greater (u32z (sigma_nsq + s1))).getD (0, 0)).1 ∧
        ((integer_get_best_16bits_opt_greater (u32z (sigma_nsq + s1))).getD (0, 0)).1 ≤ 65535 := by
      rw [hgd]
      exact ⟨hgr.1, by omega⟩
    by_cases hpos : 0 ≤ s12
    swap
    · rw [if_neg hpos] at ht
      simp only [List.mem_singleton] at ht
      subst ht
      exact hng
    · rw [if_pos hpos] at ht
      have hn1 := i32wrap_range (s2 + sigma_nsq)
      set numer1 := i32wrap (s2 + sigma_nsq) with hn1d
      have hs1nn : (0 : ℤ) ≤ s1 := by omega
      have hprod : numer1 * s1 < 18446744073709551616 := by
        have hb1 : numer1 * s1 ≤ 2147483648 * s1 :=
          mul_le_mul_of_nonneg_right (by omega) hs1nn
        have hb2 : (2147483648 : ℤ) * s1 < 2147483648 * 2147483648 := by
          have := hs1.2
          linarith
        linarith
      by_cases hden : 0 < numer1 * s1 - s12 * s12
      · rw [if_pos hden] at ht
        have hss : (0 : ℤ) ≤ s12 * s12 := mul_self_nonneg s12
        have hnt : (0 : ℤ) < numer1 * s1 := by linarith
        have hzu : (u64z (numer1 * s1) : ℤ) = numer1 * s1 :=
          u64z_of_nonneg_lt _ (by linarith) hprod
        have h1n : 1 ≤ u64z (numer1 * s1) := by omega
        have h2n : u64z (numer1 * s1) < 2 ^ 64 := by
          have he : (2 : ℤ) ^ 64 = 18446744073709551616 := by norm_num
          omega
        have hzu2 : (u64z (numer1 * s1 - s12 * s12) : ℤ) = numer1 * s1 - s12 * s12 :=
          u64z_of_nonneg_lt _ (by linarith) (by linarith)
        have h1d : 1 ≤ u64z (numer1 * s1 - s12 * s12) := by omega
        have h2d : u64z (numer1 * s1 - s12 * s12) < 2 ^ 64 := by
          have he : (2 : ℤ) ^ 64 = 18446744073709551616 := by norm_num
          omega
        have hml := m64_range (u64z (numer1 * s1)) h1n h2n
        have hml2 := m64_range (u64z (numer1 * s1 - s12 * s12)) h1d h2d
        have hne : (integer_get_best_16bits_opt_64 (u64z (numer1 * s1))).getD (0, 0) =
            (m64 (u64z (numer1 * s1)), 16 - (bitlen (u64z (numer1 * s1)) : ℤ)) := by
          rw [opt_64_eq _ h1n h2n]
          rfl
        have hde : (integer_get_best_16bits_opt_64 (u64z (numer1 * s1 - s12 * s12))).getD (0, 0) =
            (m64 (u64z (numer1 * s1 - s12 * s12)),
              16 - (bitlen (u64z (numer1 * s1 - s12 * s12)) : ℤ)) := by
          rw [opt_64_eq _ h1d h2d]
          rfl
        simp only [List.mem_cons, List.mem_singleton, List.not_mem_nil, or_false] at ht
        rcases ht with ht | ht | ht
        · subst ht
          exact hng
        · subst ht
          rw [hne]
          exact ⟨hml.1, by omega⟩
        · subst ht
          rw [hde]
          exact ⟨hml2.1, by omega⟩
      · rw [if_neg hden] at ht
        simp only [List.mem_singleton] at ht
        subst ht
        exact hng

theorem C10_table_reads_witness :
    32768 ≤ (vif_statistic_pixel_reads 0 0 131072 131072 131072).getD 0 0 ∧
      (vif_statistic_pixel_reads 0 0 131072 131072 131072).getD 0 0 ≤ 65535 :=
  C10_table_reads_in_initialized_range 0 0 131072 131072 131072 _ (by decide)

theorem vif_statistic_reduce_init : vif_statistic_reduce {} = (0, 0) := by
  unfold vif_statistic_reduce
  norm_num

theorem vif_statistic_h_zero (logv : ℕ → ℕ) (mu1 mu2 xx yy xy : ℤ → ℤ → ℕ) (w : ℕ) :
    vif_statistic logv mu1 mu2 xx yy xy w 0 = (0, 0) := by
  unfold vif_statistic vif_statistic_accum
  simp only [List.range_zero, List.foldl_nil]
  exact vif_statistic_reduce_init

/-- A scale-`s > 0` step on a frame whose valid area is at most `1 × 1`
halves the dimensions to zero and appends the statistic of an empty area,
which is `(0, 0)`. -/
theorem extract_scale_step_small (B : ℕ) (logv : ℕ → ℕ) (st : ScaleState) (scale : ℕ)
    (hs : scale ≠ 0) (hw : st.w ≤ 1) (hh : st.h ≤ 1) :
    (extract_scale_step B logv st scale).w = 0 ∧
      (extract_scale_step B logv st scale).h = 0 ∧
      (extract_scale_step B logv st scale).scores = st.scores ++ [(0, 0)] := by
  have hw0 : st.w / 2 = 0 := by omega
  have hh0 : st.h / 2 = 0 := by omega
  simp only [extract_scale_step, if_neg hs, hw0, hh0]
  refine ⟨by first | rfl | trivial, by first | rfl | trivial, ?_⟩
  congr 1
  rw [vif_statistic_h_zero]

/-- A scale-0 step leaves the dimensions unchanged and appends one pair. -/
theorem extract_scale_step_zero (B : ℕ) (logv : ℕ → ℕ) (st : ScaleState) :
    (extract_scale_step B logv st 0).w = st.w ∧
      (extract_scale_step B logv st 0).h = st.h ∧
      ∃ nd, (extract_scale_step B logv st 0).scores = st.scores ++ [nd] := by
  simp only [extract_scale_step, eq_self_iff_true, if_true]
  exact ⟨by first | rfl | trivial, by first | rfl | trivial, _, rfl⟩

/-- C9 (amended).  On a `1 × 1` frame the valid width and height are halved
to zero before scales 1, 2 and 3, so those scales accumulate over an empty
area and produce `num = den = 0` whatever the frame contents, the bit
depth, or the table: the emitted ratio there is `0 / 0` (a NaN at the
sink), not 1.0.  Moreover the scale-0 vertical pass of the statistic
filter maps the first mirrored tap of a `1 × 1` frame to row 8, outside
the frame, so no defined scale-0 score exists either. -/
theorem C9_one_by_one_scales_degenerate (refP disP : ℤ → ℤ → ℕ) (B : ℕ) (logv : ℕ → ℕ) :
    (extract_scores refP disP 1 1 B logv).length = 4 ∧
      (extract_scores refP disP 1 1 B logv).getD 1 (1, 1) = (0, 0) ∧
      (extract_scores refP disP 1 1 B logv).getD 2 (1, 1) = (0, 0) ∧
      (extract_scores refP disP 1 1 B logv).getD 3 (1, 1) = (0, 0) ∧
      mirror (0 - ((17 / 2 : ℕ) : ℤ) + 0) 1 = 8 := by
  have hstep := extract_scale_step_zero B logv
    { refP := refP, disP := disP, w := 1, h := 1, scores := [] }
  obtain ⟨hw0, hh0, nd0, hs0⟩ := hstep
  set st0 := extract_scale_step B logv
    { refP := refP, disP := disP, w := 1, h := 1, scores := [] } 0 with hst0
  have h1 := extract_scale_step_small B logv st0 1 (by norm_num) (le_of_eq hw0) (le_of_eq hh0)
  set st1 := extract_scale_step B logv st0 1 with hst1
  have h2 := extract_scale_step_small B logv st1 2 (by norm_num) (by omega) (by omega)
  set st2 := extract_scale_step B logv st1 2 with hst2
  have h3 := extract_scale_step_small B logv st2 3 (by norm_num) (by omega) (by omega)
  set st3 := extract_scale_step B logv st2 3 with hst3
  have hsc : extract_scores refP disP 1 1 B logv = st3.scores := by
    unfold extract_scores
    rw [list_range_four]
    rfl
  rw [hsc, h3.2.2, h2.2.2, h1.2.2, hs0]
  simp only [List.nil_append, List.append_assoc, List.singleton_append]
  refine ⟨rfl, rfl, rfl, rfl, rfl⟩

theorem C9_claim_counterexample :
    ¬ (∀ p ∈ (extract (constPlane 128) (constPlane 128) 1 1 8 log_values 0
        (fun _ _ _ => 0)).2, p.2.1 = 1) := by
  with_unfolding_all decide

theorem horner_sub_eq_Sdiff (x y : ℚ) :
    horner_s log2_poly_s y - horner_s log2_poly_s x = (y - x) * Sdiff x y := by
  unfold horner_s log2_poly_s Sdiff
  simp only [List.foldl_cons, List.foldl_nil]
  ring

theorem Sdiff_pair1 (x y : ℚ) (hx1 : x ≤ 1) (hy1 : y ≤ 1) :
    0 ≤ 1442694803896991 / 1000000000000000
        - 721314327952201 / 1000000000000000 * (x + y) := by
  have hnum : (0 : ℚ) ≤ 1442694803896991 / 1000000000000000
      - 2 * (721314327952201 / 1000000000000000) := by norm_num
  have hc : (0 : ℚ) ≤ 721314327952201 / 1000000000000000 := by norm_num
  nlinarith

theorem Sdiff_pair2 (x y : ℚ) (hx0 : 0 ≤ x) (hx1 : x ≤ 1) (hy0 : 0 ≤ y) (hy1 : y ≤ 1) :
    0 ≤ 480131410397451 / 1000000000000000 * (x ^ 2 + x * y + y ^ 2)
        - 353800560300520 / 1000000000000000 * (x ^ 3 + x ^ 2 * y + x * y ^ 2 + y ^ 3) := by
  have f1 : x ^ 3 ≤ x ^ 2 := pow_le_pow_of_le_one hx0 hx1 (by norm_num)
  have f2 : y ^ 3 ≤ y ^ 2 := pow_le_pow_of_le_one hy0 hy1 (by norm_num)
  have hx21 : x ^ 2 ≤ x := by
    simpa using pow_le_pow_of_le_one hx0 hx1 (by norm_num : 1 ≤ 2)
  have hy21 : y ^ 2 ≤ y := by
    simpa using pow_le_pow_of_le_one hy0 hy1 (by norm_num : 1 ≤ 2)
  have f3 : x ^ 2 * y ≤ x * y := mul_le_mul_of_nonneg_right hx21 hy0
  have f4 : x ^ 2 * y ≤ x ^ 2 := mul_le_of_le_one_right (pow_nonneg hx0 2) hy1
  have f5 : x * y ^ 2 ≤ x * y := mul_le_mul_of_nonneg_left hy21 hx0
  have f6 : x * y ^ 2 ≤ y ^ 2 := mul_le_of_le_one_left (pow_nonneg hy0 2) hx1
  have hr : 3 * (x ^ 3 + x ^ 2 * y + x * y ^ 2 + y ^ 3) ≤ 4 * (x ^ 2 + x * y + y ^ 2) := by
    linarith
  have h3nn : 0 ≤ x ^ 2 + x * y + y ^ 2 := by
    have g1 := mul_nonneg hx0 hy0
    have g2 := pow_nonneg hx0 2
    have g3 := pow_nonneg hy0 2
    linarith
  have c4 : (0 : ℚ) ≤ 353800560300520 / 1000000000000000 := by norm_num
  have step1 := mul_le_mul_of_nonneg_left hr c4
  have cnum : (353800560300520 / 1000000000000000 : ℚ) * 4
      ≤ (480131410397451 / 1000000000000000) * 3 := by norm_num
  have step2 := mul_le_mul_of_nonneg_right cnum h3nn
  nlinarith

theorem Sdiff_pair3 (x y : ℚ) (hx0 : 0 ≤ x) (hx1 : x ≤ 1) (hy0 : 0 ≤ y) (hy1 : y ≤ 1) :
    0 ≤ 257167726303123 / 1000000000000000
          * (x ^ 4 + x ^ 3 * y + x ^ 2 * y ^ 2 + x * y ^ 3 + y ^ 4)
        - 157048836463065 / 1000000000000000
          * (x ^ 5 + x ^ 4 * y + x ^ 3 * y ^ 2 + x ^ 2 * y ^ 3 + x * y ^ 4 + y ^ 5) := by
  have f1 : x ^ 5 ≤ x ^ 4 := pow_le_pow_of_le_one hx0 hx1 (by norm_num)
  have f2 : y ^ 5 ≤ y ^ 4 := pow_le_pow_of_le_one hy0 hy1 (by norm_num)
  have hx43 : x ^ 4 ≤ x ^ 3 := pow_le_pow_of_le_one hx0 hx1 (by norm_num)
  have hx32 : x ^ 3 ≤ x ^ 2 := pow_le_pow_of_le_one hx0 hx1 (by norm_num)
  have hy43 : y ^ 4 ≤ y ^ 3 := pow_le_pow_of_le_one hy0 hy1 (by norm_num)
  have hy32 : y ^ 3 ≤ y ^ 2 := pow_le_pow_of_le_one hy0 hy1 (by norm_num)
  have f3 : x ^ 4 * y ≤ x ^ 3 * y := mul_le_mul_of_nonneg_right hx43 hy0
  have f4 : x ^ 4 * y ≤ x ^ 4 := mul_le_of_le_one_right (pow_nonneg hx0 4) hy1
  have f5 : x ^ 3 * y ^ 2 ≤ x ^ 2 * y ^ 2 :=
    mul_le_mul_of_nonneg_right hx32 (pow_nonneg hy0 2)
  have hy21p3 : y ^ 2 ≤ y := by
    simpa using pow_le_pow_of_le_one hy0 hy1 (by norm_num : 1 ≤ 2)
  have f6 : x ^ 3 * y ^ 2 ≤ x ^ 3 * y := mul_le_mul_of_nonneg_left hy21p3 (pow_nonneg hx0 3)
  have f7 : x ^ 2 * y ^ 3 ≤ x * y ^ 3 := by
    have hx21 : x ^ 2 ≤ x := by
      simpa using pow_le_pow_of_le_one hx0 hx1 (by norm_num : 1 ≤ 2)
    exact mul_le_mul_of_nonneg_right hx21 (pow_nonneg hy0 3)
  have f8 : x ^ 2 * y ^ 3 ≤ x ^ 2 * y ^ 2 :=
    mul_le_mul_of_nonneg_left hy32 (pow_nonneg hx0 2)
  have f9 : x * y ^ 4 ≤ y ^ 4 := mul_le_of_le_one_left (pow_nonneg hy0 4) hx1
  have f10 : x * y ^ 4 ≤ x * y ^ 3 := mul_le_mul_of_nonneg_left hy43 hx0
  have hr : 5 * (x ^ 5 + x ^ 4 * y + x ^ 3 * y ^ 2 + x ^ 2 * y ^ 3 + x * y ^ 4 + y ^ 5)
      ≤ 6 * (x ^ 4 + x ^ 3 * y + x ^ 2 * y ^ 2 + x * y ^ 3 + y ^ 4) := by
    linarith
  have h5nn : 0 ≤ x ^ 4 + x ^ 3 * y + x ^ 2 * y ^ 2 + x * y ^ 3 + y ^ 4 := by
    have g1 := mul_nonneg (pow_nonneg hx0 3) hy0
    have g2 := mul_nonneg (pow_nonneg hx0 2) (pow_nonneg hy0 2)
    have g3 := mul_nonneg hx0 (pow_nonneg hy0 3)
    have g4 := pow_nonneg hx0 4
    have g5 := pow_nonneg hy0 4
    linarith
  have c6 : (0 : ℚ) ≤ 157048836463065 / 1000000000000000 := by norm_num
  have step1 := mul_le_mul_of_nonneg_left hr c6
  have cnum : (157048836463065 / 1000000000000000 : ℚ) * 6
      ≤ (257167726303123 / 1000000000000000) * 5 := by norm_num
  have step2 := mul_le_mul_of_nonneg_right cnum h5nn
  nlinarith

theorem Sdiff_pair4 (x y : ℚ) (hx0 : 0 ≤ x) (hx1 : x ≤ 1) (hy0 : 0 ≤ y) (hy1 : y ≤ 1) :
    0 ≤ 64841182402670 / 1000000000000000
          * (x ^ 6 + x ^ 5 * y + x ^ 4 * y ^ 2 + x ^ 3 * y ^ 3 + x ^ 2 * y ^ 4 + x * y ^ 5
             + y ^ 6)
        - 12671635276421 / 1000000000000000
          * (x ^ 7 + x ^ 6 * y + x ^ 5 * y ^ 2 + x ^ 4 * y ^ 3 + x ^ 3 * y ^ 4 + x ^ 2 * y ^ 5
             + x * y ^ 6 + y ^ 7) := by
  have hx65 : x ^ 6 ≤ x ^ 5 := pow_le_pow_of_le_one hx0 hx1 (by norm_num)
  have hx54 : x ^ 5 ≤ x ^ 4 := pow_le_pow_of_le_one hx0 hx1 (by norm_num)
  have hx43 : x ^ 4 ≤ x ^ 3 := pow_le_pow_of_le_one hx0 hx1 (by norm_num)
  have hx32 : x ^ 3 ≤ x ^ 2 := pow_le_pow_of_le_one hx0 hx1 (by norm_num)
  have hx21 : x ^ 2 ≤ x := by
    simpa using pow_le_pow_of_le_one hx0 hx1 (by norm_num : 1 ≤ 2)
  have hy65 : y ^ 6 ≤ y ^ 5 := pow_le_pow_of_le_one hy0 hy1 (by norm_num)
  have hy54 : y ^ 5 ≤ y ^ 4 := pow_le_pow_of_le_one hy0 hy1 (by norm_num)
  have hy43 : y ^ 4 ≤ y ^ 3 := pow_le_pow_of_le_one hy0 hy1 (by norm_num)
  have hy32 : y ^ 3 ≤ y ^ 2 := pow_le_pow_of_le_one hy0 hy1 (by norm_num)
  have f1 : x ^ 7 ≤ x ^ 6 := pow_le_pow_of_le_one hx0 hx1 (by norm_num)
  have f2 : y ^ 7 ≤ y ^ 6 := pow_le_pow_of_le_one hy0 hy1 (by norm_num)
  have f3 : x ^ 6 * y ≤ x ^ 5 * y := mul_le_mul_of_nonneg_right hx65 hy0
  have f4 : x ^ 6 * y ≤ x ^ 6 := mul_le_of_le_one_right (pow_nonneg hx0 6) hy1
  have f5 : x ^ 5 * y ^ 2 ≤ x ^ 4 * y ^ 2 :=
    mul_le_mul_of_nonneg_right hx54 (pow_nonneg hy0 2)
  have hy21p5 : y ^ 2 ≤ y := by
    simpa using pow_le_pow_of_le_one hy0 hy1 (by norm_num : 1 ≤ 2)
  have f6 : x ^ 5 * y ^ 2 ≤ x ^ 5 * y :=
    mul_le_mul_of_nonneg_left hy21p5 (pow_nonneg hx0 5)
  have f7 : x ^ 4 * y ^ 3 ≤ x ^ 3 * y ^ 3 :=
    mul_le_mul_of_nonneg_right hx43 (pow_nonneg hy0 3)
  have f8 : x ^ 4 * y ^ 3 ≤ x ^ 4 * y ^ 2 :=
    mul_le_mul_of_nonneg_left hy32 (pow_nonneg hx0 4)
  have f9 : x ^ 3 * y ^ 4 ≤ x ^ 2 * y ^ 4 :=
    mul_le_mul_of_nonneg_right hx32 (pow_nonneg hy0 4)
  have f10 : x ^ 3 * y ^ 4 ≤ x ^ 3 * y ^ 3 :=
    mul_le_mul_of_nonneg_left hy43 (pow_nonneg hx0 3)
  have f11 : x ^ 2 * y ^ 5 ≤ x * y ^ 5 :=
    mul_le_mul_of_nonneg_right hx21 (pow_nonneg hy0 5)
  have f12 : x ^ 2 * y ^ 5 ≤ x ^ 2 * y ^ 4 :=
    mul_le_mul_of_nonneg_left hy54 (pow_nonneg hx0 2)
  have f13 : x * y ^ 6 ≤ y ^ 6 := mul_le_of_le_one_left (pow_nonneg hy0 6) hx1
  have f14 : x * y ^ 6 ≤ x * y ^ 5 := mul_le_mul_of_nonneg_left hy65 hx0
  have hr : 7 * (x ^ 7 + x ^ 6 * y + x ^ 5 * y ^ 2 + x ^ 4 * y ^ 3 + x ^ 3 * y ^ 4
        + x ^ 2 * y ^ 5 + x * y ^ 6 + y ^ 7)
      ≤ 8 * (x ^ 6 + x ^ 5 * y + x ^ 4 * y ^ 2 + x ^ 3 * y ^ 3 + x ^ 2 * y ^ 4 + x * y ^ 5
        + y ^ 6) := by
    linarith
  have h7nn : 0 ≤ x ^ 6 + x ^ 5 * y + x ^ 4 * y ^ 2 + x ^ 3 * y ^ 3 + x ^ 2 * y ^ 4
      + x * y ^ 5 + y ^ 6 := by
    have g1 := mul_nonneg (pow_nonneg hx0 5) hy0
    have g2 := mul_nonneg (pow_nonneg hx0 4) (pow_nonneg hy0 2)
    have g3 := mul_nonneg (pow_nonneg hx0 3) (pow_nonneg hy0 3)
    have g4 := mul_nonneg (pow_nonneg hx0 2) (pow_nonneg hy0 4)
    have g5 := mul_nonneg hx0 (pow_nonneg hy0 5)
    have g6 := pow_nonneg hx0 6
    have g7 := pow_nonneg hy0 6
    linarith
  have c8 : (0 : ℚ) ≤ 12671635276421 / 1000000000000000 := by norm_num
  have step1 := mul_le_mul_of_nonneg_left hr c8
  have cnum : (12671635276421 / 1000000000000000 : ℚ) * 8
      ≤ (64841182402670 / 1000000000000000) * 7 := by norm_num
  have step2 := mul_le_mul_of_nonneg_right cnum h7nn
  nlinarith

theorem Sdiff_nonneg (x y : ℚ) (hx0 : 0 ≤ x) (hx1 : x ≤ 1) (hy0 : 0 ≤ y) (hy1 : y ≤ 1) :
    0 ≤ Sdiff x y := by
  have h1 := Sdiff_pair1 x y hx1 hy1
  have h2 := Sdiff_pair2 x y hx0 hx1 hy0 hy1
  have h3 := Sdiff_pair3 x y hx0 hx1 hy0 hy1
  have h4 := Sdiff_pair4 x y hx0 hx1 hy0 hy1
  unfold Sdiff
  linarith

/-- Monotonicity of the table polynomial on `[0, 1]`. -/
theorem horner_s_mono (x y : ℚ) (hx0 : 0 ≤ x) (hxy : x ≤ y) (hy1 : y ≤ 1) :
    horner_s log2_poly_s x ≤ horner_s log2_poly_s y := by
  have hx1 : x ≤ 1 := le_trans hxy hy1
  have hy0 : (0 : ℚ) ≤ y := le_trans hx0 hxy
  have hd := horner_sub_eq_Sdiff x y
  have hs := Sdiff_nonneg x y hx0 hx1 hy0 hy1
  nlinarith [mul_nonneg (sub_nonneg.mpr hxy) hs]

/-- Closed form of the approximation on the upper half of the range, where
the float exponent is 15. -/
theorem log2f_approx_hi (i : ℕ) (hge : 32768 ≤ i) (h2 : i ≤ 65535) :
    log2f_approx i = 15 + horner_s log2_poly_s ((i : ℚ) / 2 ^ 15 - 1) := by
  have hbl : bitlen i = 16 := by
    have := bitlen_of 15 i (by norm_num) (by norm_num; omega) (by norm_num; omega)
    simpa using this
  have he : bitlen i - 1 = 15 := by omega
  simp only [log2f_approx]
  rw [he]
  norm_num

/-- The mantissa argument lies in `[0, 1)` on the upper half of the range. -/
theorem mantissa_bounds (i : ℕ) (hge : 32768 ≤ i) (h2 : i ≤ 65535) :
    0 ≤ (i : ℚ) / 2 ^ 15 - 1 ∧ (i : ℚ) / 2 ^ 15 - 1 ≤ 1 := by
  have hle : (32768 : ℚ) ≤ (i : ℚ) := by exact_mod_cast hge
  have hub : (i : ℚ) ≤ 65535 := by exact_mod_cast h2
  constructor
  · have : (1 : ℚ) ≤ (i : ℚ) / 2 ^ 15 := by
      rw [le_div_iff (by norm_num : (0 : ℚ) < 2 ^ 15)]
      norm_num
      linarith
    linarith
  · have : (i : ℚ) / 2 ^ 15 ≤ 2 := by
      rw [div_le_iff (by norm_num : (0 : ℚ) < 2 ^ 15)]
      norm_num
      linarith
    linarith

/-- The table approximation is monotone across the initialized range. -/
theorem log2f_approx_mono (i j : ℕ) (h1 : 32767 ≤ i) (hij : i ≤ j) (h2 : j ≤ 65535) :
    log2f_approx i ≤ log2f_approx j := by
  rcases Nat.lt_or_ge i 32768 with hi | hi
  · have hieq : i = 32767 := by omega
    subst hieq
    rcases Nat.lt_or_ge j 32768 with hj | hj
    · have hjeq : j = 32767 := by omega
      subst hjeq
      exact le_refl _
    · have ha : log2f_approx 32767 ≤ 15 := by with_unfolding_all decide
      have hb : (15 : ℚ) ≤ log2f_approx j := by
        rw [log2f_approx_hi j hj h2]
        have hP0 : horner_s log2_poly_s 0 = 0 := by with_unfolding_all decide
        obtain ⟨hm0, hm1⟩ := mantissa_bounds j hj h2
        have := horner_s_mono 0 ((j : ℚ) / 2 ^ 15 - 1) (le_refl 0) hm0 hm1
        rw [hP0] at this
        linarith
      linarith
  · have hi2 : i ≤ 65535 := le_trans hij h2
    rw [log2f_approx_hi i hi hi2, log2f_approx_hi j (le_trans hi hij) h2]
    obtain ⟨hmi0, hmi1⟩ := mantissa_bounds i hi hi2
    obtain ⟨hmj0, hmj1⟩ := mantissa_bounds j (le_trans hi hij) h2
    have hijq : (i : ℚ) ≤ (j : ℚ) := by exact_mod_cast hij
    have hmono := horner_s_mono ((i : ℚ) / 2 ^ 15 - 1) ((j : ℚ) / 2 ^ 15 - 1) hmi0
      (by
        have : (i : ℚ) / 2 ^ 15 ≤ (j : ℚ) / 2 ^ 15 :=
          div_le_div_of_nonneg_right hijq (by norm_num) |>.trans_eq rfl
        linarith)
      hmj1
    linarith

/-- The table itself is monotone on the initialized range. -/
theorem log_values_mono (i j : ℕ) (h1 : 32767 ≤ i) (hij : i ≤ j) (h2 : j ≤ 65535) :
    log_values i ≤ log_values j := by
  unfold log_values
  rw [if_pos ⟨h1, le_trans hij h2⟩, if_pos ⟨le_trans h1 hij, h2⟩]
  apply Int.toNat_le_toNat
  rw [round_eq, round_eq]
  apply Int.floor_le_floor
  have := log2f_approx_mono i j h1 hij h2
  linarith

theorem binpow_zero (b e : ℕ) : binpow 0 b e = 1 := rfl

theorem vif_statistic_reduce_eq_measures (a : VifAccum) :
    vif_statistic_reduce a = (numQ a, denQ a) := rfl

theorem bitlen_mono (u v : ℕ) (huv : u ≤ v) (hv : v < 2 ^ 64) : bitlen u ≤ bitlen v := by
  rcases Nat.eq_zero_or_pos v with h0 | h0
  · subst h0
    have : u = 0 := by omega
    subst this
    exact le_refl _
  · rcases Nat.eq_zero_or_pos u with hu0 | hu0
    · subst hu0
      unfold bitlen
      rw [bitlenAux_zero]
      exact Nat.zero_le _
    · obtain ⟨hv1, hv2⟩ := bitlen_bounds v h0 hv
      exact bitlen_le_of_lt u (bitlen v) (bitlen_le_of_lt v 64 (by norm_num) hv)
        (lt_of_le_of_lt huv hv2)

theorem bitlen_pow (β : ℕ) (hβ : β ≤ 63) : bitlen (2 ^ β) = β + 1 := by
  apply bitlen_of β (2 ^ β) (by omega) (le_refl _)
  exact Nat.pow_lt_pow_right (by norm_num) (by omega)

theorem bitlen_pow_sub_one (β : ℕ) (hβ1 : 1 ≤ β) (hβ2 : β ≤ 64) :
    bitlen (2 ^ β - 1) = β := by
  have h1 : 2 ^ (β - 1) ≤ 2 ^ β - 1 := by
    have hlt : (2 : ℕ) ^ (β - 1) < 2 ^ β := Nat.pow_lt_pow_right (by norm_num) (by omega)
    omega
  have h2 : 2 ^ β - 1 < 2 ^ (β - 1 + 1) := by
    have : β - 1 + 1 = β := by omega
    rw [this]
    have : (0 : ℕ) < 2 ^ β := by positivity
    omega
  have := bitlen_of (β - 1) (2 ^ β - 1) (by omega) h1 h2
  omega

theorem m64_pow (β : ℕ) (hβ : β ≤ 62) : m64 (2 ^ β) = 32768 := by
  have hbl : bitlen (2 ^ β) = β + 1 := bitlen_pow β (by omega)
  unfold m64
  rw [hbl]
  rcases Nat.lt_or_ge (β + 1) 17 with hc | hc
  · rw [if_pos (by omega)]
    rw [Nat.shiftLeft_eq, ← pow_add]
    have : β + (16 - (β + 1)) = 15 := by omega
    rw [this]
    norm_num
  · rw [if_neg (by omega)]
    rw [Nat.shiftRight_eq_div_pow]
    rw [Nat.pow_div (by omega) (by norm_num)]
    have h15 : β - (β + 1 - 16) = 15 := by omega
    rw [h15]

theorem log_values_32768 : log_values 32768 = 30720 := by with_unfolding_all decide

theorem log_values_65535 : log_values 65535 = 32768 := by with_unfolding_all decide

/-- The integer log estimate of the 64-bit normalizer is monotone for
inputs of equal bit length. -/
theorem g64_mono_same (u v : ℕ) (h1 : 1 ≤ u) (huv : u ≤ v) (hb : bitlen u = bitlen v)
    (hv : v < 2 ^ 64) : g64 log_values u ≤ g64 log_values v := by
  have hu64 : u < 2 ^ 64 := lt_of_le_of_lt huv hv
  have hmle : m64 u ≤ m64 v := by
    unfold m64
    rw [hb]
    split
    · rw [Nat.shiftLeft_eq, Nat.shiftLeft_eq]
      exact Nat.mul_le_mul_right _ huv
    · rw [Nat.shiftRight_eq_div_pow, Nat.shiftRight_eq_div_pow]
      exact Nat.div_le_div_right huv
  obtain ⟨hmu1, hmu2⟩ := m64_range u h1 hu64
  obtain ⟨hmv1, hmv2⟩ := m64_range v (by omega) hv
  have hL := log_values_mono (m64 u) (m64 v) (by omega) hmle (by omega)
  unfold g64
  rw [hb]
  have : ((log_values (m64 u) : ℕ) : ℤ) ≤ ((log_values (m64 v) : ℕ) : ℤ) := by
    exact_mod_cast hL
  linarith

/-- The integer log estimate does not decrease across a power-of-two
boundary. -/
theorem g64_boundary (β : ℕ) (hβ1 : 1 ≤ β) (hβ2 : β ≤ 62) :
    g64 log_values (2 ^ β - 1) ≤ g64 log_values (2 ^ β) := by
  have hb1 : bitlen (2 ^ β - 1) = β := bitlen_pow_sub_one β hβ1 (by omega)
  have hb2 : bitlen (2 ^ β) = β + 1 := bitlen_pow β (by omega)
  have hpow64 : (2 : ℕ) ^ β < 2 ^ 64 := Nat.pow_lt_pow_right (by norm_num) (by omega)
  have h1 : (1 : ℕ) ≤ 2 ^ β - 1 := by
    have : (2 : ℕ) ^ 1 ≤ 2 ^ β := Nat.pow_le_pow_right (by norm_num) (by omega)
    omega
  obtain ⟨hm1, hm2⟩ := m64_range (2 ^ β - 1) h1 (by omega)
  have hLle : log_values (m64 (2 ^ β - 1)) ≤ 32768 := by
    have h65 := log_values_mono (m64 (2 ^ β - 1)) 65535 (by omega) (by omega) (le_refl _)
    rw [log_values_65535] at h65
    exact h65
  unfold g64
  rw [hb1, hb2, m64_pow β hβ2, log_values_32768]
  have hcast : ((log_values (m64 (2 ^ β - 1)) : ℕ) : ℤ) ≤ 32768 := by exact_mod_cast hLle
  push_cast
  linarith

theorem g64_mono_aux : ∀ (n : ℕ) (u v : ℕ), 1 ≤ u → u ≤ v → v < 2 ^ 63 →
    bitlen v - bitlen u ≤ n → g64 log_values u ≤ g64 log_values v := by
  intro n
  induction n with
  | zero =>
    intro u v h1 huv hv hd
    have hble : bitlen u ≤ bitlen v := bitlen_mono u v huv (by omega)
    exact g64_mono_same u v h1 huv (by omega) (by omega)
  | succ n ih =>
    intro u v h1 huv hv hd
    rcases Nat.eq_or_lt_of_le (bitlen_mono u v huv (by omega)) with heq | hlt
    · exact g64_mono_same u v h1 huv heq (by omega)
    · have hu64 : u < 2 ^ 64 := by omega
      obtain ⟨hu1, hu2⟩ := bitlen_bounds u h1 hu64
      have hβ1 : 1 ≤ bitlen u := bitlen_pos u h1 hu64
      have hblev : bitlen v ≤ 63 := bitlen_le_of_lt v 63 (by norm_num) hv
      have hβ62 : bitlen u ≤ 62 := by omega
      obtain ⟨hv1, hv2⟩ := bitlen_bounds v (by omega) (by omega)
      have hsub : 2 ^ bitlen u ≤ v := by
        have hx : (2 : ℕ) ^ bitlen u ≤ 2 ^ (bitlen v - 1) :=
          Nat.pow_le_pow_right (by norm_num) (by omega)
        omega
      have hbm : bitlen (2 ^ bitlen u - 1) = bitlen u := bitlen_pow_sub_one _ hβ1 (by omega)
      have hpw64 : (2 : ℕ) ^ bitlen u < 2 ^ 64 := Nat.pow_lt_pow_right (by norm_num) (by omega)
      have hs1 : g64 log_values u ≤ g64 log_values (2 ^ bitlen u - 1) :=
        g64_mono_same u (2 ^ bitlen u - 1) h1 (by omega) hbm.symm (by omega)
      have hs2 := g64_boundary (bitlen u) hβ1 hβ62
      have hs3 : g64 log_values (2 ^ bitlen u) ≤ g64 log_values v := by
        apply ih (2 ^ bitlen u) v Nat.one_le_two_pow hsub hv
        rw [bitlen_pow (bitlen u) (by omega)]
        omega
      linarith

/-- Monotonicity of the integer log estimate `g64`. -/
theorem g64_mono (u v : ℕ) (h1 : 1 ≤ u) (huv : u ≤ v) (hv : v < 2 ^ 63) :
    g64 log_values u ≤ g64 log_values v := by
  have hb : bitlen v ≤ 63 := bitlen_le_of_lt v 63 (by norm_num) hv
  exact g64_mono_aux 64 u v h1 huv hv (by omega)

/-- Closed form of a low-variance pixel. -/
theorem pixel_eq_low (logv : ℕ → ℕ) (m1 m2 X Y Z : ℕ) (a : VifAccum)
    (h : ¬ sigma_nsq ≤ sigma1v m1 X) :
    vif_statistic_pixel logv m1 m2 X Y Z a =
      { a with accum_num_non_log := a.accum_num_non_log + sigma1v m2 Y,
               accum_den_non_log := a.accum_den_non_log + 1 } := by
  have h1 : ¬ sigma_nsq ≤ i32 (X + 4294967296 - ((m1 * m1 + 2147483648) >>> 32)) := by
    simpa [sigma1v] using h
  simp only [vif_statistic_pixel]
  rw [if_neg h1]
  rfl

/-- Closed form of a high-variance pixel with negative `sigma12`. -/
theorem pixel_eq_high_neg (logv : ℕ → ℕ) (m1 m2 X Y Z : ℕ) (a : VifAccum)
    (h : sigma_nsq ≤ sigma1v m1 X) (h12 : ¬ (0 : ℤ) ≤ sigma12v m1 m2 Z) :
    vif_statistic_pixel logv m1 m2 X Y Z a =
      { a with num_accum_x := a.num_accum_x + 1,
               accum_x := a.accum_x +
                 ((integer_get_best_16bits_opt_greater
                    (u32z (sigma_nsq + sigma1v m1 X))).getD (0, 0)).2,
               accum_num_log := a.accum_num_log + 0,
               accum_den_log := a.accum_den_log +
                 (logv (((integer_get_best_16bits_opt_greater
                    (u32z (sigma_nsq + sigma1v m1 X))).getD (0, 0)).1) : ℤ) } := by
  have h1 : sigma_nsq ≤ i32 (X + 4294967296 - ((m1 * m1 + 2147483648) >>> 32)) := by
    simpa [sigma1v] using h
  have h2 : ¬ (0 : ℤ) ≤ i32 (Z + 4294967296 - ((m1 * m2 + 2147483648) >>> 32)) := by
    simpa [sigma12v] using h12
  simp only [vif_statistic_pixel]
  rw [if_pos h1, if_neg h2]
  rfl

/-- Closed form of a high-variance pixel on the logarithmic path. -/
theorem pixel_eq_high_log (logv : ℕ → ℕ) (m1 m2 X Y Z : ℕ) (a : VifAccum)
    (h : sigma_nsq ≤ sigma1v m1 X) (h12 : (0 : ℤ) ≤ sigma12v m1 m2 Z)
    (hden : (0 : ℤ) < denomv m1 m2 X Y Z) :
    vif_statistic_pixel logv m1 m2 X Y Z a =
      { a with num_accum_x := a.num_accum_x + 1,
               accum_x := a.accum_x +
                 ((integer_get_best_16bits_opt_greater
                    (u32z (sigma_nsq + sigma1v m1 X))).getD (0, 0)).2,
               accum_x2 := a.accum_x2 +
                 (((integer_get_best_16bits_opt_64
                      (u64z (denomv m1 m2 X Y Z))).getD (0, 0)).2 -
                  ((integer_get_best_16bits_opt_64
                      (u64z (i32wrap (sigma1v m2 Y + sigma_nsq) * sigma1v m1 X))).getD
                      (0, 0)).2),
               accum_num_log := a.accum_num_log +
                 ((logv (((integer_get_best_16bits_opt_64
                      (u64z (i32wrap (sigma1v m2 Y + sigma_nsq) * sigma1v m1 X))).getD
                      (0, 0)).1) : ℤ) -
                  (logv (((integer_get_best_16bits_opt_64
                      (u64z (denomv m1 m2 X Y Z))).getD (0, 0)).1) : ℤ)),
               accum_den_log := a.accum_den_log +
                 (logv (((integer_get_best_16bits_opt_greater
                    (u32z (sigma_nsq + sigma1v m1 X))).getD (0, 0)).1) : ℤ) } := by
  have h1 : sigma_nsq ≤ i32 (X + 4294967296 - ((m1 * m1 + 2147483648) >>> 32)) := by
    simpa [sigma1v] using h
  have h2 : (0 : ℤ) ≤ i32 (Z + 4294967296 - ((m1 * m2 + 2147483648) >>> 32)) := by
    simpa [sigma12v] using h12
  have h3 : (0 : ℤ) < i32wrap (i32 (Y + 4294967296 - ((m2 * m2 + 2147483648) >>> 32))
        + sigma_nsq) * i32 (X + 4294967296 - ((m1 * m1 + 2147483648) >>> 32))
      - i32 (Z + 4294967296 - ((m1 * m2 + 2147483648) >>> 32))
        * i32 (Z + 4294967296 - ((m1 * m2 + 2147483648) >>> 32)) := by
    simpa [denomv, sigma1v, sigma12v] using hden
  simp only [vif_statistic_pixel]
  rw [if_pos h1, if_pos h2, if_pos h3]
  rfl

/-- Packaged bounds for the clamped-variance cast `u32z (131072 + s)`. -/
theorem u32z_sig_facts (s : ℤ) (h1 : 131072 ≤ s) (h2 : s < 2147483648) :
    262144 ≤ u32z (131072 + s) ∧ u32z (131072 + s) < 2 ^ 64 := by
  have hvz : (u32z (131072 + s) : ℤ) = 131072 + s :=
    u32z_of_nonneg_lt _ (by omega) (by omega)
  constructor
  · have hq : (262144 : ℤ) ≤ (u32z (131072 + s) : ℤ) := by omega
    exact_mod_cast hq
  · have hq : (u32z (131072 + s) : ℤ) < 2 ^ 64 := by
      have h264 : (2 : ℤ) ^ 64 = 18446744073709551616 := by norm_num
      omega
    exact_mod_cast hq

/-- Packaged facts about a normalizer input of at least `2^18`: its bit
length is at least 19 and its mantissa table entry is at least 30720. -/
theorem v_facts (v : ℕ) (h18 : 262144 ≤ v) (h64 : v < 2 ^ 64) :
    19 ≤ bitlen v ∧ 30720 ≤ log_values (v >>> (bitlen v - 16)) := by
  have hbv : 19 ≤ bitlen v := by
    have hq := le_bitlen_of_le v 18 h64 (by norm_num; omega)
    omega
  obtain ⟨hmant1, hmant2⟩ := shift_top16_range v (by omega) h64
  have hm := log_values_mono 32768 (v >>> (bitlen v - 16)) (by omega) hmant1 (by omega)
  rw [log_values_32768] at hm
  exact ⟨hbv, hm⟩

/-- Packaged bounds for the `u64` casts of the two log arguments of the
high-variance branch. -/
theorem u64z_pair_facts (w s : ℤ) (hs : 0 ≤ s) (hd : 0 < w - s)
    (hw : w < 4611686018427387904) :
    1 ≤ u64z (w - s) ∧ u64z (w - s) ≤ u64z w ∧ u64z w < 2 ^ 63 := by
  have hdz : (u64z w : ℤ) = w := u64z_of_nonneg_lt _ (by omega) (by omega)
  have hdz2 : (u64z (w - s) : ℤ) = w - s := u64z_of_nonneg_lt _ (by omega) (by omega)
  refine ⟨?_, ?_, ?_⟩
  · have hq : (1 : ℤ) ≤ (u64z (w - s) : ℤ) := by omega
    exact_mod_cast hq
  · have hq : (u64z (w - s) : ℤ) ≤ (u64z w : ℤ) := by omega
    exact_mod_cast hq
  · have hq : (u64z w : ℤ) < 2 ^ 63 := by
      have h263 : (2 : ℤ) ^ 63 = 9223372036854775808 := by norm_num
      omega
    exact_mod_cast hq

/-- Measure gains of the record written by the low-variance branch. -/
theorem measures_low (s2 : ℤ) (a : VifAccum) (h : s2 ≤ 16384 * 65025) :
    numQ a ≤ numQ { a with accum_num_non_log := a.accum_num_non_log + s2,
                           accum_den_non_log := a.accum_den_non_log + 1 } ∧
      denQ a + 1 ≤ denQ { a with accum_num_non_log := a.accum_num_non_log + s2,
                                 accum_den_non_log := a.accum_den_non_log + 1 } := by
  constructor
  · simp only [numQ]
    have hc : ((s2 : ℤ) : ℚ) ≤ ((16384 * 65025 : ℤ) : ℚ) := by exact_mod_cast h
    push_cast
    push_cast at hc
    linarith
  · simp only [denQ]
    push_cast
    linarith

/-- Measure gains of the record written by the high-variance branch when
`sigma12` is negative, over a plain integer `sigma1_sq` input. -/
theorem measures_high_neg (sg1 : ℤ) (a : VifAccum)
    (hlo : 131072 ≤ sg1) (hhi : sg1 < 2147483648) :
    numQ a ≤ numQ
      { a with
        num_accum_x := a.num_accum_x + 1,
        accum_x := a.accum_x +
          ((integer_get_best_16bits_opt_greater (u32z (131072 + sg1))).getD (0, 0)).2,
        accum_num_log := a.accum_num_log + 0,
        accum_den_log := a.accum_den_log +
          (log_values (((integer_get_best_16bits_opt_greater
            (u32z (131072 + sg1))).getD (0, 0)).1) : ℤ) } ∧
      denQ a + 1 ≤ denQ
      { a with
        num_accum_x := a.num_accum_x + 1,
        accum_x := a.accum_x +
          ((integer_get_best_16bits_opt_greater (u32z (131072 + sg1))).getD (0, 0)).2,
        accum_num_log := a.accum_num_log + 0,
        accum_den_log := a.accum_den_log +
          (log_values (((integer_get_best_16bits_opt_greater
            (u32z (131072 + sg1))).getD (0, 0)).1) : ℤ) } := by
  obtain ⟨hv18, hv64⟩ := u32z_sig_facts sg1 hlo hhi
  obtain ⟨hbv, hLmant⟩ := v_facts (u32z (131072 + sg1)) hv18 hv64
  rw [opt_greater_eq _ (by omega) hv64]
  simp only [Option.getD_some]
  generalize hGv : u32z (131072 + sg1) = v at hbv hLmant ⊢
  constructor
  · simp only [numQ]
    push_cast
    linarith
  · simp only [denQ]
    have hc1 : ((30720 : ℕ) : ℚ) ≤ ((log_values (v >>> (bitlen v - 16)) : ℕ) : ℚ) := by
      exact_mod_cast hLmant
    have hc2 : ((19 : ℕ) : ℚ) ≤ ((bitlen v : ℕ) : ℚ) := by exact_mod_cast hbv
    push_cast
    push_cast at hc1 hc2
    linarith

/-- Measure gains of the record written by the high-variance logarithmic
branch, over plain integer `sigma1_sq`, `sigma12` and `numer1` inputs. -/
theorem measures_high_log (sg1 sg12 nm1 : ℤ) (a : VifAccum)
    (hlo : 131072 ≤ sg1) (hhi : sg1 < 2147483648)
    (hz1 : 0 ≤ sg12) (hw2 : nm1 < 2147483648)
    (hdenom : 0 < nm1 * sg1 - sg12 * sg12) :
    numQ a ≤ numQ
      { a with
        num_accum_x := a.num_accum_x + 1,
        accum_x := a.accum_x +
          ((integer_get_best_16bits_opt_greater (u32z (131072 + sg1))).getD (0, 0)).2,
        accum_x2 := a.accum_x2 +
          (((integer_get_best_16bits_opt_64
              (u64z (nm1 * sg1 - sg12 * sg12))).getD (0, 0)).2 -
           ((integer_get_best_16bits_opt_64 (u64z (nm1 * sg1))).getD (0, 0)).2),
        accum_num_log := a.accum_num_log +
          ((log_values (((integer_get_best_16bits_opt_64
              (u64z (nm1 * sg1))).getD (0, 0)).1) : ℤ) -
           (log_values (((integer_get_best_16bits_opt_64
              (u64z (nm1 * sg1 - sg12 * sg12))).getD (0, 0)).1) : ℤ)),
        accum_den_log := a.accum_den_log +
          (log_values (((integer_get_best_16bits_opt_greater
            (u32z (131072 + sg1))).getD (0, 0)).1) : ℤ) } ∧
      denQ a + 1 ≤ denQ
      { a with
        num_accum_x := a.num_accum_x + 1,
        accum_x := a.accum_x +
          ((integer_get_best_16bits_opt_greater (u32z (131072 + sg1))).getD (0, 0)).2,
        accum_x2 := a.accum_x2 +
          (((integer_get_best_16bits_opt_64
              (u64z (nm1 * sg1 - sg12 * sg12))).getD (0, 0)).2 -
           ((integer_get_best_16bits_opt_64 (u64z (nm1 * sg1))).getD (0, 0)).2),
        accum_num_log := a.accum_num_log +
          ((log_values (((integer_get_best_16bits_opt_64
              (u64z (nm1 * sg1))).getD (0, 0)).1) : ℤ) -
           (log_values (((integer_get_best_16bits_opt_64
              (u64z (nm1 * sg1 - sg12 * sg12))).getD (0, 0)).1) : ℤ)),
        accum_den_log := a.accum_den_log +
          (log_values (((integer_get_best_16bits_opt_greater
            (u32z (131072 + sg1))).getD (0, 0)).1) : ℤ) } := by
  obtain ⟨hv18, hv64⟩ := u32z_sig_facts sg1 hlo hhi
  obtain ⟨hbv, hLmant⟩ := v_facts (u32z (131072 + sg1)) hv18 hv64
  have hm1pos : (0 : ℤ) < nm1 := by nlinarith
  have hnt_lt : nm1 * sg1 < 4611686018427387904 := by nlinarith
  obtain ⟨hn2, hn4, hn3⟩ := u64z_pair_facts (nm1 * sg1) (sg12 * sg12)
    (by positivity) hdenom hnt_lt
  have hn1 : 1 ≤ u64z (nm1 * sg1) := le_trans hn2 hn4
  rw [opt_greater_eq _ (by omega) hv64]
  rw [opt_64_eq _ hn1 (by omega), opt_64_eq _ hn2 (by omega)]
  simp only [Option.getD_some]
  generalize hGv : u32z (131072 + sg1) = v at hbv hLmant ⊢
  generalize hN : u64z (nm1 * sg1) = nN at hn3 hn4 ⊢
  generalize hD : u64z (nm1 * sg1 - sg12 * sg12) = nD at hn2 hn4 ⊢
  have hg := g64_mono nD nN hn2 hn4 hn3
  unfold g64 at hg
  constructor
  · simp only [numQ]
    have hgq : (((log_values (m64 nD) : ℕ) : ℚ)
          + 2048 * (((bitlen nD : ℕ) : ℚ) - 16))
        ≤ (((log_values (m64 nN) : ℕ) : ℚ)
          + 2048 * (((bitlen nN : ℕ) : ℚ) - 16)) := by
      exact_mod_cast hg
    push_cast
    push_cast at hgq
    linarith
  · simp only [denQ]
    have hc1 : ((30720 : ℕ) : ℚ) ≤ ((log_values (v >>> (bitlen v - 16)) : ℕ) : ℚ) := by
      exact_mod_cast hLmant
    have hc2 : ((19 : ℕ) : ℚ) ≤ ((bitlen v : ℕ) : ℚ) := by exact_mod_cast hbv
    push_cast
    push_cast at hc1 hc2
    linarith

/-- One statistic pixel never decreases the numerator reduction and adds
at least 1 to the denominator reduction, provided the pixel is not on the
degenerate fallback path and, in the low-variance branch, `sigma2_sq` is
at most `16384 * 65025`. -/
theorem vif_statistic_pixel_measures (m1 m2 X Y Z : ℕ)
    (hnd : ¬ (sigma_nsq ≤ sigma1v m1 X ∧ 0 ≤ sigma12v m1 m2 Z ∧
        denomv m1 m2 X Y Z ≤ 0))
    (hlw : sigma1v m1 X < sigma_nsq → sigma1v m2 Y ≤ 16384 * 65025)
    (a : VifAccum) :
    numQ a ≤ numQ (vif_statistic_pixel log_values m1 m2 X Y Z a) ∧
      denQ a + 1 ≤ denQ (vif_statistic_pixel log_values m1 m2 X Y Z a) := by
  have hsn : sigma_nsq = (131072 : ℤ) := rfl
  have hr1 : -2147483648 ≤ sigma1v m1 X ∧ sigma1v m1 X < 2147483648 := i32_range _
  have hrw : -2147483648 ≤ i32wrap (sigma1v m2 Y + sigma_nsq) ∧
      i32wrap (sigma1v m2 Y + sigma_nsq) < 2147483648 := i32wrap_range _
  have hdeq : denomv m1 m2 X Y Z =
      i32wrap (sigma1v m2 Y + sigma_nsq) * sigma1v m1 X
        - sigma12v m1 m2 Z * sigma12v m1 m2 Z := rfl
  by_cases hhigh : sigma_nsq ≤ sigma1v m1 X
  · by_cases hs12 : (0 : ℤ) ≤ sigma12v m1 m2 Z
    · by_cases hdenom : (0 : ℤ) < denomv m1 m2 X Y Z
      · rw [pixel_eq_high_log log_values m1 m2 X Y Z a hhigh hs12 hdenom, hdeq, hsn]
        rw [hdeq, hsn] at hdenom
        rw [hsn] at hhigh hrw
        exact measures_high_log (sigma1v m1 X) (sigma12v m1 m2 Z)
          (i32wrap (sigma1v m2 Y + 131072)) a hhigh hr1.2 hs12 hrw.2 hdenom
      · exact absurd ⟨hhigh, hs12, by omega⟩ hnd
    · rw [pixel_eq_high_neg log_values m1 m2 X Y Z a hhigh hs12, hsn]
      rw [hsn] at hhigh
      exact measures_high_neg (sigma1v m1 X) a hhigh hr1.2
  · rw [pixel_eq_low log_values m1 m2 X Y Z a hhigh]
    exact measures_low (sigma1v m2 Y) a (hlw (lt_of_not_le hhigh))

/-- A fold of measure-monotone steps: `numQ` never decreases and `denQ`
gains at least `n` per element. -/
theorem foldl_measures_mem (g : ℕ → VifAccum → VifAccum) (n : ℚ) :
    ∀ l : List ℕ,
      (∀ j ∈ l, ∀ a : VifAccum, numQ a ≤ numQ (g j a) ∧ denQ a + n ≤ denQ (g j a)) →
      ∀ a : VifAccum,
        numQ a ≤ numQ (l.foldl (fun acc j => g j acc) a) ∧
          denQ a + l.length * n ≤ denQ (l.foldl (fun acc j => g j acc) a) := by
  intro l
  induction l with
  | nil =>
    intro hg a
    constructor
    · simp
    · simp
  | cons x xs ih =>
    intro hg a
    simp only [List.foldl_cons, List.length_cons]
    obtain ⟨h1, h2⟩ := hg x (List.mem_cons_self x xs) a
    obtain ⟨h3, h4⟩ := ih (fun j hj a => hg j (List.mem_cons_of_mem x hj) a) (g x a)
    refine ⟨le_trans h1 h3, ?_⟩
    push_cast
    push_cast at h4
    linarith

/-- Accumulator-level measures: over an `h × w` area with no degenerate
pixel and bounded `sigma2_sq` at low-variance pixels, `numQ` stays
nonnegative and `denQ` counts at least the area. -/
theorem vif_statistic_accum_measures (mu1 mu2 xx yy xy : ℤ → ℤ → ℕ) (w h : ℕ)
    (hnodeg : ∀ i j : ℕ, i < h → j < w → ¬ degenerate_at mu1 mu2 xx yy xy i j)
    (hlow : ∀ i j : ℕ, i < h → j < w → sigma1_sq_at mu1 xx i j < sigma_nsq →
        sigma2_sq_at mu2 yy i j ≤ 16384 * 65025) :
    0 ≤ numQ (vif_statistic_accum log_values mu1 mu2 xx yy xy w h) ∧
      (h : ℚ) * (w : ℚ) ≤ denQ (vif_statistic_accum log_values mu1 mu2 xx yy xy w h) := by
  have hrow : ∀ i ∈ List.range h, ∀ a : VifAccum,
      numQ a ≤ numQ ((List.range w).foldl
        (fun acc (j : ℕ) => vif_statistic_pixel log_values (u32 (mu1 i j)) (u32 (mu2 i j))
          (u32 (xx i j)) (u32 (yy i j)) (u32 (xy i j)) acc) a) ∧
      denQ a + (w : ℚ) ≤ denQ ((List.range w).foldl
        (fun acc (j : ℕ) => vif_statistic_pixel log_values (u32 (mu1 i j)) (u32 (mu2 i j))
          (u32 (xx i j)) (u32 (yy i j)) (u32 (xy i j)) acc) a) := by
    intro i hi a
    have hi' := List.mem_range.mp hi
    have hpix : ∀ j ∈ List.range w, ∀ b : VifAccum,
        numQ b ≤ numQ (vif_statistic_pixel log_values (u32 (mu1 i j)) (u32 (mu2 i j))
          (u32 (xx i j)) (u32 (yy i j)) (u32 (xy i j)) b) ∧
        denQ b + 1 ≤ denQ (vif_statistic_pixel log_values (u32 (mu1 i j)) (u32 (mu2 i j))
          (u32 (xx i j)) (u32 (yy i j)) (u32 (xy i j)) b) := by
      intro j hj b
      have hj' := List.mem_range.mp hj
      exact vif_statistic_pixel_measures (u32 (mu1 i j)) (u32 (mu2 i j)) (u32 (xx i j))
        (u32 (yy i j)) (u32 (xy i j)) (hnodeg i j hi' hj') (hlow i j hi' hj') b
    have h0 := foldl_measures_mem
      (fun j b => vif_statistic_pixel log_values (u32 (mu1 i j)) (u32 (mu2 i j))
        (u32 (xx i j)) (u32 (yy i j)) (u32 (xy i j)) b) 1 (List.range w) hpix a
    simpa using h0
  have h1 := foldl_measures_mem
    (fun i acc => (List.range w).foldl
      (fun acc (j : ℕ) => vif_statistic_pixel log_values (u32 (mu1 i j)) (u32 (mu2 i j))
        (u32 (xx i j)) (u32 (yy i j)) (u32 (xy i j)) acc) acc)
    (w : ℚ) (List.range h) hrow {}
  have hnum0 : numQ {} = 0 := by
    simp [numQ]
  have hden0 : denQ {} = 0 := by
    simp [denQ]
  rw [hnum0, hden0] at h1
  simp only [List.length_range] at h1
  obtain ⟨ha, hb⟩ := h1
  constructor
  · exact le_trans (le_of_eq rfl) ha
  · have hc : (h : ℚ) * (w : ℚ) ≤ 0 + (h : ℚ) * (w : ℚ) := by linarith
    exact le_trans hc hb

/-- C4 (amended).  Over any `h × w` area with `w, h ≥ 1`, if no pixel is
degenerate (high-variance with `sigma12 ≥ 0` but `denom ≤ 0`) and every
low-variance pixel has `sigma2_sq ≤ 16384 * 65025`, the per-scale results
of `vif_statistic` satisfy `num ≥ 0` and `den > 0` — whether or not any
pixel takes the high-variance branch. -/
theorem C4_high_branch_positive (mu1 mu2 xx yy xy : ℤ → ℤ → ℕ) (w h : ℕ)
    (hw : 1 ≤ w) (hh : 1 ≤ h)
    (hnodeg : ∀ i j : ℕ, i < h → j < w → ¬ degenerate_at mu1 mu2 xx yy xy i j)
    (hlow : ∀ i j : ℕ, i < h → j < w → sigma1_sq_at mu1 xx i j < sigma_nsq →
        sigma2_sq_at mu2 yy i j ≤ 16384 * 65025) :
    0 ≤ (vif_statistic log_values mu1 mu2 xx yy xy w h).1 ∧
      0 < (vif_statistic log_values mu1 mu2 xx yy xy w h).2 := by
  obtain ⟨h1, h2⟩ := vif_statistic_accum_measures mu1 mu2 xx yy xy w h hnodeg hlow
  have hwh : (1 : ℚ) ≤ (h : ℚ) * (w : ℚ) := by
    have hq : (1 : ℕ) ≤ h * w := Nat.mul_le_mul hh hw
    exact_mod_cast hq
  unfold vif_statistic
  rw [vif_statistic_reduce_eq_measures]
  exact ⟨h1, by linarith⟩

theorem C4_high_branch_positive_witness :
    0 ≤ (vif_statistic log_values (constPlane 0) (constPlane 0) (constPlane 0)
        (constPlane 0) (constPlane 0) 1 1).1 ∧
      0 < (vif_statistic log_values (constPlane 0) (constPlane 0) (constPlane 0)
        (constPlane 0) (constPlane 0) 1 1).2 :=
  C4_high_branch_positive (constPlane 0) (constPlane 0) (constPlane 0) (constPlane 0)
    (constPlane 0) 1 1 (le_refl 1) (le_refl 1)
    (by
      intro i j hi hj
      have hi0 : i = 0 := by omega
      have hj0 : j = 0 := by omega
      subst hi0
      subst hj0
      unfold degenerate_at
      with_unfolding_all decide)
    (by
      intro i j hi hj
      have hi0 : i = 0 := by omega
      have hj0 : j = 0 := by omega
      subst hi0
      subst hj0
      intro hlt
      with_unfolding_all decide)

/-- C4 (counterexample to the claim as stated).  A single-pixel area whose
pixel takes the high-variance branch (`sigma1_sq = 131072 = sigma_nsq`)
with `sigma12 = 0` and `denom < 0` lands on the fallback path, which
increments the normalizer count without any `accum_den_log` gain: the
denominator comes out `-13 < 0`, refuting `den > 0`. -/
theorem C4_claim_counterexample :
    sigma_nsq ≤ sigma1_sq_at (constPlane 0) (constPlane 131072) 0 0 ∧
      ¬ 0 < (vif_statistic log_values (constPlane 0) (constPlane 0) (constPlane 131072)
          (constPlane 4294667296) (constPlane 0) 1 1).2 := by
  with_unfolding_all decide

/-- C8.  Each of the four sink appends is attempted unconditionally —
whatever statuses the sink returns, the emitted trace holds all four
appends — and the returned status is the bitwise OR of the four append
statuses, so no failing status prevents the remaining appends. -/
theorem C8_extract_ors_statuses_and_attempts_all
    (refP disP : ℤ → ℤ → ℕ) (w h B : ℕ) (logv : ℕ → ℕ) (index : ℕ)
    (sink : String → ℚ → ℕ → ℤ) :
    (extract refP disP w h B logv index sink).1 =
      Int.lor (Int.lor (Int.lor (Int.lor 0
        (sink (vif_feature_keys.getD 0 "")
          (((extract_scores refP disP w h B logv).getD 0 (0, 0)).1
            / ((extract_scores refP disP w h B logv).getD 0 (0, 0)).2) index))
        (sink (vif_feature_keys.getD 1 "")
          (((extract_scores refP disP w h B logv).getD 1 (0, 0)).1
            / ((extract_scores refP disP w h B logv).getD 1 (0, 0)).2) index))
        (sink (vif_feature_keys.getD 2 "")
          (((extract_scores refP disP w h B logv).getD 2 (0, 0)).1
            / ((extract_scores refP disP w h B logv).getD 2 (0, 0)).2) index))
        (sink (vif_feature_keys.getD 3 "")
          (((extract_scores refP disP w h B logv).getD 3 (0, 0)).1
            / ((extract_scores refP disP w h B logv).getD 3 (0, 0)).2) index)
      ∧ (extract refP disP w h B logv index sink).2.length = 4 := by
  exact ⟨rfl, rfl⟩

end IntegerVif
